import Mathlib

/-!
Verification of the local knowledge engine core (nexus-planner-spark).

This file gives a shallow embedding, in Lean 4, of the core algorithms of the
`src-tauri` Rust crate: the hybrid retrieval pipeline (`rag/query.rs`), the
three-pass context merge (`lib.rs`), the sync delta with Last-Write-Wins merge
(`sync/delta.rs`), the store writes (`rag/knowledge.rs`), the AES-GCM sync
envelope (`sync/encryption.rs`), the `did:key` codec (`did/resolver.rs`), the
canonical-hash signing layer (`did/signing.rs`), and the fallback embedder
(`rag/embedding.rs`).

Conventions used throughout:
- Rust `f32`/`f64` arithmetic is modelled exactly over `ℚ` (and `ℝ` where a
  square root appears).  Machine integers are modelled as `ℕ` with explicit
  `% 2^w` where the source uses wrapping arithmetic.
- SQL tables keyed by a primary key are modelled as association lists whose
  observable interface is `List.lookup`; `INSERT OR REPLACE` is modelled by
  shadowing the key.
- External cryptographic primitives (the Ed25519 and AES-GCM library calls,
  and the floating point `sin` of the fallback embedder) are taken as
  parameters; everything written in the repository itself is translated
  directly.  SHA-256 and base58btc are implemented in full.
-/

/-! ## Retrieval engine (`src-tauri/src/rag/query.rs`) -/

/-- Mirrors the `VecRow` candidate row of `rag/query.rs` (sqlite-vec path):
per-row data joined from `vec_knowledge` and `knowledge_items`. -/
structure VecRow where
  knowledge_id : String
  distance : ℚ
  content : String
  summary : Option String
  knowledge_type : String
  source_type : String
  scope : String
  role_tag : Option String
  dialectic_tag : Option String
  confidence : ℚ
  relevance_score : ℚ
  usage_count : Int
  project_id : Option String
  user_id : Option String
deriving DecidableEq

/-- Mirrors the `LegacyRow` row of `rag/query.rs` (in-memory scan path).  The
stored vector is kept as the decoded float list (`blob_to_vector` output). -/
structure LegacyRow where
  id : String
  content : String
  summary : Option String
  knowledge_type : String
  source_type : String
  scope : String
  role_tag : Option String
  dialectic_tag : Option String
  confidence : ℚ
  relevance_score : ℚ
  usage_count : Int
  project_id : Option String
  user_id : Option String
  vector : List ℚ
deriving DecidableEq

/-- Mirrors `SearchResult` of `rag/query.rs`. -/
structure SearchResult where
  id : String
  content : String
  summary : Option String
  knowledge_type : String
  source_type : String
  scope : String
  role_tag : Option String
  dialectic_tag : Option String
  confidence : ℚ
  relevance_score : ℚ
  usage_count : Int
  similarity : ℚ
  hybrid_score : ℚ
  project_id : Option String
  user_id : Option String
deriving DecidableEq

/-- Mirrors `SearchParams` of `rag/query.rs` (the query embedding itself is
only consumed by the SQL KNN / the cosine function, which we abstract). -/
structure SearchParams where
  query_embedding : List ℚ
  scope : String
  user_id : Option String
  project_id : Option String
  role_tag : Option String
  knowledge_type : Option String
  threshold : ℚ
  limit : Nat
  vector_weight : ℚ
  relevance_weight : ℚ
  usage_weight : ℚ

/-- `matches_scope_vec` of `rag/query.rs`, translated clause by clause. -/
def matches_scope_vec (row : VecRow) (search_scope : String)
    (user_id project_id role_tag : Option String) : Bool :=
  if search_scope = "personal" then
    row.scope == "personal" && user_id == row.user_id
  else if search_scope = "team" then
    (row.scope == "team" || row.scope == "global")
      && (project_id == row.project_id || row.project_id.isNone)
  else if search_scope = "role" then
    (row.scope == "role" || row.scope == "global")
      && (role_tag == row.role_tag || row.role_tag.isNone)
  else if search_scope = "all" then
    let is_own := user_id == row.user_id && row.user_id.isSome
    let is_team := project_id == row.project_id && row.project_id.isSome
      && (row.scope == "team" || row.scope == "global")
    let is_global := row.scope == "role" || row.scope == "global"
    is_own || is_team || is_global
  else
    false

/-- `matches_scope_legacy` of `rag/query.rs`: identical logic on `LegacyRow`. -/
def matches_scope_legacy (row : LegacyRow) (search_scope : String)
    (user_id project_id role_tag : Option String) : Bool :=
  if search_scope = "personal" then
    row.scope == "personal" && user_id == row.user_id
  else if search_scope = "team" then
    (row.scope == "team" || row.scope == "global")
      && (project_id == row.project_id || row.project_id.isNone)
  else if search_scope = "role" then
    (row.scope == "role" || row.scope == "global")
      && (role_tag == row.role_tag || row.role_tag.isNone)
  else if search_scope = "all" then
    let is_own := user_id == row.user_id && row.user_id.isSome
    let is_team := project_id == row.project_id && row.project_id.isSome
      && (row.scope == "team" || row.scope == "global")
    let is_global := row.scope == "role" || row.scope == "global"
    is_own || is_team || is_global
  else
    false

/-- The scope projection exactly as the specification's table words it
(one disjunct per requested scope; rows failing every line are dropped). -/
def scopeProjectionSpec (scope : String) (role_tag user_id project_id : Option String)
    (requested : String) (req_user req_project req_role : Option String) : Prop :=
  (requested = "personal" ∧ scope = "personal" ∧ user_id = req_user)
  ∨ (requested = "team" ∧ (scope = "team" ∨ scope = "global")
      ∧ (project_id = req_project ∨ project_id = none))
  ∨ (requested = "role" ∧ (scope = "role" ∨ scope = "global")
      ∧ (role_tag = req_role ∨ role_tag = none))
  ∨ (requested = "all" ∧
      ((user_id = req_user ∧ user_id ≠ none)
        ∨ ((scope = "team" ∨ scope = "global") ∧ project_id = req_project ∧ project_id ≠ none)
        ∨ (scope = "role" ∨ scope = "global")))

/-- Builds the `SearchResult` pushed by `hybrid_search_vec` for one row. -/
def vecRowResult (row : VecRow) (similarity hybrid_score : ℚ) : SearchResult :=
  { id := row.knowledge_id
    content := row.content
    summary := row.summary
    knowledge_type := row.knowledge_type
    source_type := row.source_type
    scope := row.scope
    role_tag := row.role_tag
    dialectic_tag := row.dialectic_tag
    confidence := row.confidence
    relevance_score := row.relevance_score
    usage_count := row.usage_count
    similarity := similarity
    hybrid_score := hybrid_score
    project_id := row.project_id
    user_id := row.user_id }

/-- The usage factor `min(usage_count as f32 / 20.0, 1.0)`. -/
def usageFactor (usage_count : Int) : ℚ := min ((usage_count : ℚ) / 20) 1

/-- Candidate filtering and scoring loop of `hybrid_search_vec`: scope filter,
optional knowledge-type filter, `similarity = 1 - distance`, threshold filter,
then score fusion. -/
def vecCandidates (params : SearchParams) (rows : List VecRow) : List SearchResult :=
  rows.filterMap (fun row =>
    if ¬ matches_scope_vec row params.scope params.user_id params.project_id params.role_tag then
      none
    else if (match params.knowledge_type with
             | some kt => row.knowledge_type != kt
             | none => false) then
      none
    else
      let similarity := 1 - row.distance
      if similarity < params.threshold then none
      else
        let hybrid_score := similarity * params.vector_weight
          + row.relevance_score * params.relevance_weight
          + usageFactor row.usage_count * params.usage_weight
        some (vecRowResult row similarity hybrid_score))

/-- Descending comparison used by `results.sort_by(|a, b| b.hybrid_score
.partial_cmp(&a.hybrid_score) ...)`. -/
def scoreDesc (a b : SearchResult) : Bool := decide (b.hybrid_score ≤ a.hybrid_score)

/-- `hybrid_search_vec` of `rag/query.rs`: filter/score the KNN candidates,
sort descending by `hybrid_score` (stable), truncate to `limit`.  The
best-effort usage-count update does not change the returned list. -/
def hybrid_search_vec (params : SearchParams) (rows : List VecRow) : List SearchResult :=
  ((vecCandidates params rows).mergeSort scoreDesc).take params.limit

/-- Builds the `SearchResult` pushed by `hybrid_search_legacy` for one row. -/
def legacyRowResult (row : LegacyRow) (similarity hybrid_score : ℚ) : SearchResult :=
  { id := row.id
    content := row.content
    summary := row.summary
    knowledge_type := row.knowledge_type
    source_type := row.source_type
    scope := row.scope
    role_tag := row.role_tag
    dialectic_tag := row.dialectic_tag
    confidence := row.confidence
    relevance_score := row.relevance_score
    usage_count := row.usage_count
    similarity := similarity
    hybrid_score := hybrid_score
    project_id := row.project_id
    user_id := row.user_id }

/-- Candidate loop of `hybrid_search_legacy`: scope filter, optional
knowledge-type filter, 384-length check on the stored vector, cosine
similarity (`simFn` abstracts `cosine_similarity`, a floating-point
computation), threshold filter, score fusion. -/
def legacyCandidates (simFn : List ℚ → List ℚ → ℚ) (params : SearchParams)
    (rows : List LegacyRow) : List SearchResult :=
  rows.filterMap (fun row =>
    if ¬ matches_scope_legacy row params.scope params.user_id params.project_id params.role_tag then
      none
    else if (match params.knowledge_type with
             | some kt => row.knowledge_type != kt
             | none => false) then
      none
    else if row.vector.length ≠ 384 then none
    else
      let similarity := simFn params.query_embedding row.vector
      if similarity < params.threshold then none
      else
        let hybrid_score := similarity * params.vector_weight
          + row.relevance_score * params.relevance_weight
          + usageFactor row.usage_count * params.usage_weight
        some (legacyRowResult row similarity hybrid_score))

/-- `hybrid_search_legacy` of `rag/query.rs`. -/
def hybrid_search_legacy (simFn : List ℚ → List ℚ → ℚ) (params : SearchParams)
    (rows : List LegacyRow) : List SearchResult :=
  ((legacyCandidates simFn params rows).mergeSort scoreDesc).take params.limit

/-- Example search parameters of the spec's hybrid-fusion scenario:
scope `all`, default threshold 0.30, limit 5, weights 0.70/0.20/0.10. -/
def exampleFusionParams : SearchParams :=
  { query_embedding := []
    scope := "all"
    user_id := some "u1"
    project_id := none
    role_tag := none
    knowledge_type := none
    threshold := 3/10
    limit := 5
    vector_weight := 7/10
    relevance_weight := 2/10
    usage_weight := 1/10 }

/-- Example row with similarity 0.90 (distance 0.10), relevance 0.30, usage 0. -/
def exampleRowA : VecRow :=
  { knowledge_id := "A", distance := 1/10, content := "a", summary := none
    knowledge_type := "t", source_type := "s", scope := "personal"
    role_tag := none, dialectic_tag := none, confidence := 1
    relevance_score := 3/10, usage_count := 0, project_id := none
    user_id := some "u1" }

/-- Example row with similarity 0.80 (distance 0.20), relevance 0.95, usage 40. -/
def exampleRowB : VecRow :=
  { knowledge_id := "B", distance := 2/10, content := "b", summary := none
    knowledge_type := "t", source_type := "s", scope := "personal"
    role_tag := none, dialectic_tag := none, confidence := 1
    relevance_score := 19/20, usage_count := 40, project_id := none
    user_id := some "u1" }

theorem scoreDesc_trans (a b c : SearchResult) (hab : scoreDesc a b = true)
    (hbc : scoreDesc b c = true) : scoreDesc a c = true := by
  simp only [scoreDesc, decide_eq_true_eq] at *
  exact le_trans hbc hab

theorem scoreDesc_total (a b : SearchResult) : (scoreDesc a b || scoreDesc b a) = true := by
  simp only [scoreDesc, Bool.or_eq_true, decide_eq_true_eq]
  exact le_total b.hybrid_score a.hybrid_score

theorem mem_vecCandidates_score (params : SearchParams) (rows : List VecRow)
    (res : SearchResult) (h : res ∈ vecCandidates params rows) :
    res.hybrid_score = res.similarity * params.vector_weight
      + res.relevance_score * params.relevance_weight
      + usageFactor res.usage_count * params.usage_weight := by
  rw [vecCandidates, List.mem_filterMap] at h
  obtain ⟨row, -, hf⟩ := h
  by_cases h1 : matches_scope_vec row params.scope params.user_id params.project_id
      params.role_tag
  on_goal 2 => simp [h1] at hf
  simp only [h1, not_true_eq_false, if_false] at hf
  split at hf
  · exact absurd hf (by simp)
  · split at hf
    · exact absurd hf (by simp)
    · injection hf with hf
      subst hf
      simp [vecRowResult]

theorem mem_legacyCandidates_score (simFn : List ℚ → List ℚ → ℚ) (params : SearchParams)
    (rows : List LegacyRow) (res : SearchResult) (h : res ∈ legacyCandidates simFn params rows) :
    res.hybrid_score = res.similarity * params.vector_weight
      + res.relevance_score * params.relevance_weight
      + usageFactor res.usage_count * params.usage_weight := by
  rw [legacyCandidates, List.mem_filterMap] at h
  obtain ⟨row, -, hf⟩ := h
  by_cases h1 : matches_scope_legacy row params.scope params.user_id params.project_id
      params.role_tag
  on_goal 2 => simp [h1] at hf
  simp only [h1, not_true_eq_false, if_false] at hf
  split at hf
  · exact absurd hf (by simp)
  · split at hf
    · exact absurd hf (by simp)
    · split at hf
      · exact absurd hf (by simp)
      · injection hf with hf
        subst hf
        simp [legacyRowResult]

theorem sorted_take_score (l : List SearchResult) (n : Nat) :
    List.Pairwise (fun a b => b.hybrid_score ≤ a.hybrid_score) ((l.mergeSort scoreDesc).take n) := by
  have hs := List.sorted_mergeSort scoreDesc_trans scoreDesc_total l
  have ht := List.Pairwise.sublist (List.take_sublist n (l.mergeSort scoreDesc)) hs
  exact ht.imp (fun hab => by simpa [scoreDesc] using hab)

/-- C1: every result returned by hybrid search carries
`hybrid_score = similarity·w_v + relevance_score·w_r + min(usage/20, 1)·w_u`;
the returned list is sorted by descending hybrid score and truncated to
`limit`; and on the spec's example rows (similarity 0.90/0.80, relevance
0.30/0.95, usage 0/40, weights 0.70/0.20/0.10) the scores are 0.690 and
0.850 and the second row sorts first.  This holds for both the sqlite-vec
path and the legacy in-memory path. -/
theorem hybrid_search_score_fusion :
    (∀ (params : SearchParams) (rows : List VecRow) (res : SearchResult),
        res ∈ hybrid_search_vec params rows →
        res.hybrid_score = res.similarity * params.vector_weight
          + res.relevance_score * params.relevance_weight
          + usageFactor res.usage_count * params.usage_weight)
  ∧ (∀ (params : SearchParams) (rows : List VecRow),
        List.Pairwise (fun a b => b.hybrid_score ≤ a.hybrid_score)
          (hybrid_search_vec params rows))
  ∧ (∀ (params : SearchParams) (rows : List VecRow),
        (hybrid_search_vec params rows).length ≤ params.limit)
  ∧ (∀ (simFn : List ℚ → List ℚ → ℚ) (params : SearchParams) (rows : List LegacyRow)
        (res : SearchResult),
        res ∈ hybrid_search_legacy simFn params rows →
        res.hybrid_score = res.similarity * params.vector_weight
          + res.relevance_score * params.relevance_weight
          + usageFactor res.usage_count * params.usage_weight)
  ∧ (∀ (simFn : List ℚ → List ℚ → ℚ) (params : SearchParams) (rows : List LegacyRow),
        List.Pairwise (fun a b => b.hybrid_score ≤ a.hybrid_score)
          (hybrid_search_legacy simFn params rows)
        ∧ (hybrid_search_legacy simFn params rows).length ≤ params.limit)
  ∧ ((hybrid_search_vec exampleFusionParams [exampleRowA, exampleRowB]).map
        (fun r => (r.id, r.hybrid_score)) = [("B", 85/100), ("A", 69/100)]) := by
  refine ⟨?_, ?_, ?_, ?_, ?_, ?_⟩
  · intro params rows res h
    rw [hybrid_search_vec] at h
    exact mem_vecCandidates_score params rows res
      (List.mem_mergeSort.mp (List.mem_of_mem_take h))
  · intro params rows
    exact sorted_take_score _ _
  · intro params rows
    exact List.length_take_le _ _
  · intro simFn params rows res h
    rw [hybrid_search_legacy] at h
    exact mem_legacyCandidates_score simFn params rows res
      (List.mem_mergeSort.mp (List.mem_of_mem_take h))
  · intro simFn params rows
    exact ⟨sorted_take_score _ _, List.length_take_le _ _⟩
  · have e1 : ¬ ("all" : String) = "personal" := by decide
    have e2 : ¬ ("all" : String) = "team" := by decide
    have e3 : ¬ ("all" : String) = "role" := by decide
    have e4 : ¬ ("personal" : String) = "team" := by decide
    have e5 : ¬ ("personal" : String) = "global" := by decide
    have e6 : ¬ ("personal" : String) = "role" := by decide
    norm_num [hybrid_search_vec, vecCandidates, matches_scope_vec, vecRowResult,
      usageFactor, scoreDesc, exampleFusionParams, exampleRowA, exampleRowB,
      List.mergeSort, List.merge, List.filterMap, e1, e2, e3, e4, e5, e6]

/-- Repackages a legacy row's scope-relevant fields as a `VecRow` (the scope
check reads only `scope`, `user_id`, `project_id`, `role_tag`). -/
def legacyScopeView (row : LegacyRow) : VecRow :=
  { knowledge_id := row.id, distance := 0, content := row.content
    summary := row.summary, knowledge_type := row.knowledge_type
    source_type := row.source_type, scope := row.scope, role_tag := row.role_tag
    dialectic_tag := row.dialectic_tag, confidence := row.confidence
    relevance_score := row.relevance_score, usage_count := row.usage_count
    project_id := row.project_id, user_id := row.user_id }

theorem matches_scope_legacy_eq_vec (row : LegacyRow) (s : String)
    (u p r : Option String) :
    matches_scope_legacy row s u p r = matches_scope_vec (legacyScopeView row) s u p r := rfl

theorem matches_scope_vec_iff (row : VecRow) (s : String) (u p r : Option String) :
    matches_scope_vec row s u p r = true
      ↔ scopeProjectionSpec row.scope row.role_tag row.user_id row.project_id s u p r := by
  have d1 : ¬ ("personal" : String) = "team" := by decide
  have d2 : ¬ ("personal" : String) = "role" := by decide
  have d3 : ¬ ("personal" : String) = "all" := by decide
  have d4 : ¬ ("team" : String) = "role" := by decide
  have d5 : ¬ ("team" : String) = "all" := by decide
  have d6 : ¬ ("role" : String) = "all" := by decide
  unfold matches_scope_vec scopeProjectionSpec
  split_ifs with h1 h2 h3 h4
  · simp only [Bool.and_eq_true, beq_iff_eq]
    constructor
    · rintro ⟨hs, hu⟩
      exact Or.inl ⟨h1, hs, hu.symm⟩
    · rintro (⟨_, hs, hu⟩ | ⟨ht, _⟩ | ⟨hr, _⟩ | ⟨ha, _⟩)
      · exact ⟨hs, hu.symm⟩
      · exact absurd (h1.symm.trans ht) d1
      · exact absurd (h1.symm.trans hr) d2
      · exact absurd (h1.symm.trans ha) d3
  · simp only [Bool.and_eq_true, Bool.or_eq_true, beq_iff_eq, Option.isNone_iff_eq_none]
    constructor
    · rintro ⟨hs, hp⟩
      refine Or.inr (Or.inl ⟨h2, hs, ?_⟩)
      rcases hp with hp | hp
      · exact Or.inl hp.symm
      · exact Or.inr hp
    · rintro (⟨hps, _⟩ | ⟨_, hs, hp⟩ | ⟨hr, _⟩ | ⟨ha, _⟩)
      · exact absurd (hps.symm.trans h2) d1
      · refine ⟨hs, ?_⟩
        rcases hp with hp | hp
        · exact Or.inl hp.symm
        · exact Or.inr hp
      · exact absurd (h2.symm.trans hr) d4
      · exact absurd (h2.symm.trans ha) d5
  · simp only [Bool.and_eq_true, Bool.or_eq_true, beq_iff_eq, Option.isNone_iff_eq_none]
    constructor
    · rintro ⟨hs, hr⟩
      refine Or.inr (Or.inr (Or.inl ⟨h3, hs, ?_⟩))
      rcases hr with hr | hr
      · exact Or.inl hr.symm
      · exact Or.inr hr
    · rintro (⟨hps, _⟩ | ⟨hts, _⟩ | ⟨_, hs, hr⟩ | ⟨ha, _⟩)
      · exact absurd (hps.symm.trans h3) d2
      · exact absurd (hts.symm.trans h3) d4
      · refine ⟨hs, ?_⟩
        rcases hr with hr | hr
        · exact Or.inl hr.symm
        · exact Or.inr hr
      · exact absurd (h3.symm.trans ha) d6
  · simp only [Bool.or_eq_true, Bool.and_eq_true, beq_iff_eq, Option.isSome_iff_ne_none]
    constructor
    · rintro ((⟨hu, hn⟩ | ⟨⟨hp, hn⟩, hs⟩) | hg)
      · exact Or.inr (Or.inr (Or.inr ⟨h4, Or.inl ⟨hu.symm, hn⟩⟩))
      · exact Or.inr (Or.inr (Or.inr ⟨h4, Or.inr (Or.inl ⟨hs, hp.symm, hn⟩)⟩))
      · exact Or.inr (Or.inr (Or.inr ⟨h4, Or.inr (Or.inr hg)⟩))
    · rintro (⟨hps, _⟩ | ⟨hts, _⟩ | ⟨hrs, _⟩ | ⟨_, (⟨hu, hn⟩ | ⟨hs, hp, hn⟩ | hg)⟩)
      · exact absurd (hps.symm.trans h4) d3
      · exact absurd (hts.symm.trans h4) d5
      · exact absurd (hrs.symm.trans h4) d6
      · exact Or.inl (Or.inl ⟨hu.symm, hn⟩)
      · exact Or.inl (Or.inr ⟨⟨hp.symm, hn⟩, hs⟩)
      · exact Or.inr hg
  · simp only [Bool.false_eq_true, false_iff]
    rintro (⟨hs, _⟩ | ⟨hs, _⟩ | ⟨hs, _⟩ | ⟨hs, _⟩)
    · exact h1 hs
    · exact h2 hs
    · exact h3 hs
    · exact h4 hs

/-- C2: hybrid search admits exactly the rows described by the spec's scope
projection table, for both the sqlite-vec and the legacy row filter: requested
`personal` needs `scope=personal` and matching user; `team` needs
`scope ∈ {team, global}` and matching-or-null project; `role` needs
`scope ∈ {role, global}` and matching-or-null role tag; `all` admits own rows
(non-null matching user), team/global rows with non-null matching project, or
any `role`/`global` row; every other requested scope admits nothing. -/
theorem hybrid_search_scope_projection :
    (∀ (row : VecRow) (s : String) (u p r : Option String),
        matches_scope_vec row s u p r = true
          ↔ scopeProjectionSpec row.scope row.role_tag row.user_id row.project_id s u p r)
  ∧ (∀ (row : LegacyRow) (s : String) (u p r : Option String),
        matches_scope_legacy row s u p r = true
          ↔ scopeProjectionSpec row.scope row.role_tag row.user_id row.project_id s u p r) := by
  constructor
  · exact matches_scope_vec_iff
  · intro row s u p r
    rw [matches_scope_legacy_eq_vec]
    exact matches_scope_vec_iff (legacyScopeView row) s u p r

/-! ## Three-pass context merge (`src-tauri/src/lib.rs`, `rag_get_context`) -/

/-- One iteration of the merge loop of `rag_get_context`: push the result and
record its id unless the id was already seen (`HashSet::insert` modelled by a
membership test on the list of seen ids). -/
def mergeStep (acc : List SearchResult × List String) (res : SearchResult) :
    List SearchResult × List String :=
  if res.id ∈ acc.2 then acc else (acc.1 ++ [res], res.id :: acc.2)

/-- The merge/deduplication of `rag_get_context`: fold over
`thesis ++ antithesis ++ personal` keeping the first occurrence of each id. -/
def rag_merge_results (thesis anti personal : List SearchResult) : List SearchResult :=
  ((thesis ++ anti ++ personal).foldl mergeStep ([], [])).1

/-- Deduplication by id keeping the first occurrence, stated the way the
specification words it (used as the reference function for the merge loop). -/
def dedupById (l : List SearchResult) : List SearchResult :=
  match l with
  | [] => []
  | x :: xs => x :: dedupById (xs.filter (fun y => y.id ≠ x.id))
termination_by l.length
decreasing_by
  simp only [List.length_cons]
  exact Nat.lt_succ_of_le (List.length_filter_le _ _)

/-- Deduplication relative to a set of already-seen ids. -/
def dedupExcluding (seen : List String) : List SearchResult → List SearchResult
  | [] => []
  | x :: xs =>
    if x.id ∈ seen then dedupExcluding seen xs
    else x :: dedupExcluding (x.id :: seen) xs

theorem foldl_mergeStep_eq (l : List SearchResult) :
    ∀ (acc : List SearchResult) (seen : List String),
      (l.foldl mergeStep (acc, seen)).1 = acc ++ dedupExcluding seen l := by
  induction l with
  | nil => intro acc seen; simp [dedupExcluding]
  | cons x xs ih =>
    intro acc seen
    by_cases hx : x.id ∈ seen
    · simp only [List.foldl_cons, mergeStep, hx, if_pos, dedupExcluding, if_true]
      exact ih acc seen
    · simp only [List.foldl_cons, mergeStep, hx, if_neg, dedupExcluding, if_false]
      rw [ih (acc ++ [x]) (x.id :: seen), List.append_assoc]
      simp

theorem dedupExcluding_eq_filter (l : List SearchResult) :
    ∀ (seen : List String),
      dedupExcluding seen l = dedupById (l.filter (fun y => decide (y.id ∉ seen))) := by
  induction l with
  | nil => intro seen; simp [dedupExcluding, dedupById]
  | cons x xs ih =>
    intro seen
    simp only [dedupExcluding, List.filter_cons]
    by_cases hx : x.id ∈ seen
    · rw [if_pos hx, if_neg (by simp [hx])]
      exact ih seen
    · rw [if_neg hx, if_pos (by simp [hx])]
      rw [dedupById]
      congr 1
      rw [ih (x.id :: seen), List.filter_filter]
      congr 1
      refine List.filter_congr (fun y hmem => ?_)
      by_cases hy : y.id = x.id
      · simp [hy]
      · simp [hy, hx]

/-- A result whose only distinguishing field is its id (for the merge
example). -/
def exampleIdResult (id : String) : SearchResult :=
  { id := id, content := "c", summary := none, knowledge_type := "t"
    source_type := "s", scope := "personal", role_tag := none
    dialectic_tag := none, confidence := 0, relevance_score := 0
    usage_count := 0, similarity := 0, hybrid_score := 0
    project_id := none, user_id := none }

/-- C10: the three-pass context build concatenates thesis, antithesis and
personal results in that order and deduplicates by id keeping the first
occurrence; on the spec's example (`[A,B,C]`, `[B,D]`, `[A,E]`) the merged
list is exactly `[A,B,C,D,E]`. -/
theorem rag_context_merge_dedup :
    (∀ (thesis anti personal : List SearchResult),
        rag_merge_results thesis anti personal = dedupById (thesis ++ anti ++ personal))
  ∧ ((rag_merge_results
        [exampleIdResult "A", exampleIdResult "B", exampleIdResult "C"]
        [exampleIdResult "B", exampleIdResult "D"]
        [exampleIdResult "A", exampleIdResult "E"]).map (fun r => r.id)
      = ["A", "B", "C", "D", "E"]) := by
  constructor
  · intro thesis anti personal
    rw [rag_merge_results, foldl_mergeStep_eq, dedupExcluding_eq_filter]
    simp
  · decide

/-! ## Connection mutex discipline (`rag/db.rs`, `rag/knowledge.rs`)

`RagDb::conn` acquires the process-wide `Mutex<Connection>` and returns the
guard; the guard is released when it goes out of scope at the end of the
enclosing function.  We model the lock behaviour of a call as the trace of
acquire/release events it performs on that mutex. -/

/-- An acquire or release of the database connection mutex. -/
inductive LockEvent where
  | acq : LockEvent
  | rel : LockEvent
deriving DecidableEq

/-- Lock trace of `update_feedback` (`rag/knowledge.rs:163`): it calls
`db.conn()` on entry and drops the guard when it returns. -/
def update_feedback_trace : List LockEvent := [LockEvent.acq, LockEvent.rel]

/-- Lock trace of `record_query_feedback` (`rag/knowledge.rs:356`): it calls
`db.conn()` on entry, holds the guard across the query-log update and the
retrieved-ids read, then calls `update_feedback(db, ...)` once per retrieved
item — each of which calls `db.conn()` again — and only drops its own guard
when the function returns. -/
def record_query_feedback_trace (retrieved_ids : List String) : List LockEvent :=
  [LockEvent.acq]
    ++ (retrieved_ids.map (fun _ => update_feedback_trace)).flatten
    ++ [LockEvent.rel]

/-- Scans a lock trace with the current hold-depth; `true` iff some acquire
happens while the same call already holds the mutex. -/
def nestedAcquireAux : Nat → List LockEvent → Bool
  | _, [] => false
  | depth, LockEvent.acq :: rest =>
    if 1 ≤ depth then true else nestedAcquireAux (depth + 1) rest
  | depth, LockEvent.rel :: rest => nestedAcquireAux (depth - 1) rest

/-- `true` iff the trace attempts a re-entrant acquisition. -/
def hasNestedAcquire (trace : List LockEvent) : Bool := nestedAcquireAux 0 trace

/-- C9: the claim states no core operation ever re-acquires the connection
mutex it already holds.  The code violates it: `record_query_feedback` keeps
its guard alive while calling `update_feedback`, which locks again, so its
trace contains a nested acquisition for any non-empty retrieved-ids list
(concretely `["item-1"]`); `update_feedback` alone is clean.  On
`std::sync::Mutex` this nested `lock()` deadlocks, so the spec's "no
re-entrant lock attempts" correctness property is broken by the code. -/
theorem record_query_feedback_nested_lock :
    hasNestedAcquire (record_query_feedback_trace ["item-1"]) = true
  ∧ hasNestedAcquire update_feedback_trace = false := by
  decide

/-! ## AES-GCM sync envelope (`src-tauri/src/sync/encryption.rs`)

The AES-256-GCM primitive lives in the `aes_gcm` crate; we abstract it as a
pair of raw functions (`enc` returns `ciphertext ‖ tag`, `dec` returns the
plaintext or an authentication failure).  The envelope layout, the length
guard and the error mapping are translated from the source. -/

/-- Abstract AEAD primitive: `enc key nonce plaintext = ciphertext ++ tag`,
`dec key nonce data = some plaintext` or `none` on authentication failure. -/
structure AeadPrimitive where
  enc : List Nat → List Nat → List Nat → List Nat
  dec : List Nat → List Nat → List Nat → Option (List Nat)

/-- `NONCE_SIZE` of `sync/encryption.rs`. -/
def NONCE_SIZE : Nat := 12

/-- `encrypt` of `sync/encryption.rs`: prepend the 96-bit nonce to
`ciphertext ++ tag`. -/
def encrypt (A : AeadPrimitive) (key nonce plaintext : List Nat) : List Nat :=
  nonce ++ A.enc key nonce plaintext

/-- `decrypt` of `sync/encryption.rs`: reject inputs shorter than nonce + tag
before any cryptographic work, split nonce from ciphertext, and map an
authentication failure to the wrong-key-or-tampered error. -/
def decrypt (A : AeadPrimitive) (key encrypted : List Nat) : Except String (List Nat) :=
  if encrypted.length < NONCE_SIZE + 16 then
    Except.error "Encrypted data too short (need nonce + tag at minimum)"
  else
    match A.dec key (encrypted.take NONCE_SIZE) (encrypted.drop NONCE_SIZE) with
    | some plaintext => Except.ok plaintext
    | none => Except.error "Decryption failed (wrong key or tampered data)"

/-- C6: for every key and plaintext (empty and 100 KiB included), decrypting
an encrypt output with the same key returns the plaintext, provided the AEAD
primitive round-trips and adds its 16-byte tag; decryption under a key for
which the primitive rejects (wrong key, or any tampered byte making
authentication fail) returns the wrong-key-or-tampered error; and any input
shorter than 28 bytes is rejected with the structural too-short error without
the primitive ever being consulted (the statement holds for every primitive
`A` uniformly). -/
theorem encrypt_decrypt_roundtrip_and_errors (A : AeadPrimitive)
    (key nonce plaintext : List Nat)
    (hnonce : nonce.length = NONCE_SIZE)
    (htag : (A.enc key nonce plaintext).length = plaintext.length + 16)
    (hdec : A.dec key nonce (A.enc key nonce plaintext) = some plaintext) :
    decrypt A key (encrypt A key nonce plaintext) = Except.ok plaintext
  ∧ (∀ (key2 data : List Nat), NONCE_SIZE + 16 ≤ data.length →
      A.dec key2 (data.take NONCE_SIZE) (data.drop NONCE_SIZE) = none →
      decrypt A key2 data = Except.error "Decryption failed (wrong key or tampered data)")
  ∧ (∀ (B : AeadPrimitive) (key3 data : List Nat), data.length < NONCE_SIZE + 16 →
      decrypt B key3 data = Except.error "Encrypted data too short (need nonce + tag at minimum)") := by
  refine ⟨?_, ?_, ?_⟩
  · have hlen : (encrypt A key nonce plaintext).length = plaintext.length + 28 := by
      simp [encrypt, htag, hnonce, NONCE_SIZE]
      omega
    have hshort : ¬ (encrypt A key nonce plaintext).length < NONCE_SIZE + 16 := by
      rw [hlen]; simp [NONCE_SIZE]
    rw [decrypt, if_neg hshort]
    have htake : (encrypt A key nonce plaintext).take NONCE_SIZE = nonce := by
      rw [encrypt, ← hnonce, List.take_left]
    have hdrop : (encrypt A key nonce plaintext).drop NONCE_SIZE = A.enc key nonce plaintext := by
      rw [encrypt, ← hnonce, List.drop_left]
    rw [htake, hdrop, hdec]
  · intro key2 data hlen hfail
    rw [decrypt, if_neg (by omega), hfail]
  · intro B key3 data hshort
    rw [decrypt, if_pos hshort]

/-- Concrete toy AEAD used to witness the hypotheses of the envelope theorem:
the tag is a 16-byte checksum of key, nonce and plaintext. -/
def toyAead : AeadPrimitive :=
  { enc := fun key nonce p => p ++ ((key.sum + nonce.sum + p.sum) % 256) :: List.replicate 15 0
    dec := fun key nonce c =>
      if _h : c.length < 16 then none
      else
        let p := c.take (c.length - 16)
        if c.drop (c.length - 16) = ((key.sum + nonce.sum + p.sum) % 256) :: List.replicate 15 0
        then some p else none }

theorem encrypt_decrypt_roundtrip_and_errors_witness :
    ((List.replicate 12 0 : List Nat).length = NONCE_SIZE
      ∧ (toyAead.enc (List.replicate 32 7) (List.replicate 12 0) [5, 6]).length = [5, 6].length + 16
      ∧ toyAead.dec (List.replicate 32 7) (List.replicate 12 0)
          (toyAead.enc (List.replicate 32 7) (List.replicate 12 0) [5, 6]) = some [5, 6])
  ∧ decrypt toyAead (List.replicate 32 7)
      (encrypt toyAead (List.replicate 32 7) (List.replicate 12 0) [5, 6]) = Except.ok [5, 6] := by
  refine ⟨⟨by decide, by decide, by decide⟩, ?_⟩
  exact (encrypt_decrypt_roundtrip_and_errors toyAead (List.replicate 32 7)
    (List.replicate 12 0) [5, 6] (by decide) (by decide) (by decide)).1

/-! ## Sync delta and store writes (`sync/delta.rs`, `rag/knowledge.rs`)

`knowledge_items` and `embeddings` are keyed by the item id; we model each
table as an association list observed through `List.lookup`, with
`INSERT OR REPLACE` / `INSERT` modelled by shadowing the key. -/

/-- A `knowledge_items` row (all columns written by `apply_delta` /
`create_knowledge_item`). -/
structure ItemRow where
  content : String
  summary : Option String
  knowledge_type : String
  source_type : String
  scope : String
  scope_layer : Option String
  role_tag : Option String
  dialectic_tag : Option String
  confidence : ℚ
  relevance_score : ℚ
  usage_count : Int
  decision_maker : Option String
  outcome : Option String
  financial_impact_krw : Option Int
  source_id : Option String
  source_context : Option String
  user_id : Option String
  project_id : Option String
  did_author : Option String
  is_active : Bool
  expires_at : Option String
  created_at : String
  updated_at : String
deriving DecidableEq

/-- Mirrors `SyncItem` of `sync/delta.rs`: a knowledge row together with its
embedding vector. -/
structure SyncItem where
  id : String
  row : ItemRow
  embedding : List ℚ
deriving DecidableEq

/-- The columns of an incoming sync item written by the upsert. -/
def syncItemRow (it : SyncItem) : ItemRow := it.row

/-- The local database state: the `knowledge_items` table and the legacy
`embeddings` table, both keyed by item id. -/
structure DbState where
  items : List (String × ItemRow)
  embeddings : List (String × List ℚ)
deriving DecidableEq

theorem lookup_cons_ne {β : Type} (k x : String) (v : β) (l : List (String × β))
    (hx : x ≠ k) : ((k, v) :: l).lookup x = l.lookup x := by
  simp only [List.lookup]
  rw [beq_eq_false_iff_ne.mpr hx]

theorem lookup_cons_eq {β : Type} (k : String) (v : β) (l : List (String × β)) :
    ((k, v) :: l).lookup k = some v := by
  simp only [List.lookup, beq_self_eq_true]

/-- The Last-Write-Wins test of `apply_delta`: upsert when no local row
exists, or when the incoming `updated_at` is strictly newer (RFC-3339 strings
compare lexicographically). -/
def shouldUpsert (st : DbState) (it : SyncItem) : Bool :=
  match st.items.lookup it.id with
  | some loc => decide (loc.updated_at < it.row.updated_at)
  | none => true

/-- The two writes of `apply_delta`'s upsert branch: `INSERT OR REPLACE` of
the item row, then — only when the incoming embedding is non-empty —
`INSERT OR REPLACE` of the embedding. -/
def upsertState (st : DbState) (it : SyncItem) : DbState :=
  { items := (it.id, syncItemRow it) :: st.items
    embeddings :=
      if it.embedding.isEmpty then st.embeddings
      else (it.id, it.embedding) :: st.embeddings }

/-- One iteration of `apply_delta`'s loop, also threading the
`(upserted, skipped)` counters. -/
def applyStep (acc : DbState × Nat × Nat) (it : SyncItem) : DbState × Nat × Nat :=
  if shouldUpsert acc.1 it then (upsertState acc.1 it, acc.2.1 + 1, acc.2.2)
  else (acc.1, acc.2.1, acc.2.2 + 1)

/-- `apply_delta` of `sync/delta.rs` (error-free path): fold the LWW upsert
over the incoming items, returning the final state and the
`(upserted, skipped)` counts. -/
def apply_delta (st : DbState) (items : List SyncItem) : DbState × Nat × Nat :=
  items.foldl applyStep (st, 0, 0)

/-- `create_knowledge_item` of `rag/knowledge.rs` (error-free path): insert
the item row and its embedding blob (the third, best-effort `vec_knowledge`
insert does not touch the `embeddings` table). -/
def create_knowledge_item (st : DbState) (id : String) (row : ItemRow)
    (embedding : List ℚ) : DbState :=
  { items := (id, row) :: st.items
    embeddings := (id, embedding) :: st.embeddings }

/-- `deactivate_knowledge_item` of `rag/knowledge.rs`: soft-delete by setting
`is_active = 0` and refreshing `updated_at`; the embedding row is untouched
and the item row remains present. -/
def deactivate_knowledge_item (st : DbState) (id : String) (now : String) : DbState :=
  match st.items.lookup id with
  | none => st
  | some r =>
    { st with items := (id, { r with is_active := false, updated_at := now }) :: st.items }

theorem applyStep_state_counts_indep (st : DbState) (c c' : Nat × Nat) (it : SyncItem) :
    (applyStep (st, c) it).1 = (applyStep (st, c') it).1 := by
  simp only [applyStep]
  split <;> rfl

theorem foldl_applyStep_state_indep (items : List SyncItem) :
    ∀ (st : DbState) (c c' : Nat × Nat),
      (items.foldl applyStep (st, c)).1 = (items.foldl applyStep (st, c')).1 := by
  induction items with
  | nil => intro st c c'; rfl
  | cons it rest ih =>
    intro st c c'
    simp only [List.foldl_cons, applyStep]
    split
    · exact ih _ _ _
    · exact ih _ _ _

theorem foldl_applyStep_counts (items : List SyncItem) :
    ∀ (st : DbState) (c : Nat × Nat),
      (items.foldl applyStep (st, c)).2.1 + (items.foldl applyStep (st, c)).2.2
        = c.1 + c.2 + items.length := by
  induction items with
  | nil => intro st c; simp
  | cons it rest ih =>
    intro st c
    simp only [List.foldl_cons, applyStep]
    split
    · rw [ih]
      simp only [List.length_cons]
      omega
    · rw [ih]
      simp only [List.length_cons]
      omega

theorem applyStep_items_lookup_ne (st : DbState) (c : Nat × Nat) (it : SyncItem)
    (x : String) (hx : x ≠ it.id) :
    (applyStep (st, c) it).1.items.lookup x = st.items.lookup x := by
  simp only [applyStep]
  split
  · exact lookup_cons_ne it.id x _ st.items hx
  · rfl

theorem applyStep_embeddings_lookup_ne (st : DbState) (c : Nat × Nat) (it : SyncItem)
    (x : String) (hx : x ≠ it.id) :
    (applyStep (st, c) it).1.embeddings.lookup x = st.embeddings.lookup x := by
  simp only [applyStep, upsertState]
  split
  · split
    · rfl
    · exact lookup_cons_ne it.id x _ st.embeddings hx
  · rfl

theorem foldl_applyStep_lookup_ne (items : List SyncItem) :
    ∀ (st : DbState) (c : Nat × Nat) (x : String), (∀ it ∈ items, it.id ≠ x) →
      (items.foldl applyStep (st, c)).1.items.lookup x = st.items.lookup x := by
  induction items with
  | nil => intro st c x _; rfl
  | cons it rest ih =>
    intro st c x h
    have hne : x ≠ it.id := fun he => h it (List.mem_cons_self it rest) he.symm
    rw [List.foldl_cons]
    rcases hstep : applyStep (st, c) it with ⟨st1, c1⟩
    rw [ih st1 c1 x (fun it2 h2 => h it2 (List.mem_cons_of_mem it h2))]
    have := applyStep_items_lookup_ne st c it x hne
    rw [hstep] at this
    exact this

/-- The per-item Last-Write-Wins outcome claimed for `apply_delta`: a fresh
id is inserted; an existing id is replaced exactly when the incoming
`updated_at` is strictly newer and left byte-for-byte unchanged otherwise;
either way the stored row afterwards is the one bearing
`max(local, incoming)` timestamps. -/
def lwwOutcome (st : DbState) (items : List SyncItem) (it : SyncItem) : Prop :=
  match st.items.lookup it.id with
  | none => (apply_delta st items).1.items.lookup it.id = some (syncItemRow it)
  | some loc =>
      (loc.updated_at < it.row.updated_at →
        (apply_delta st items).1.items.lookup it.id = some (syncItemRow it))
    ∧ (¬ loc.updated_at < it.row.updated_at →
        (apply_delta st items).1.items.lookup it.id = some loc)
    ∧ (∃ r, (apply_delta st items).1.items.lookup it.id = some r
        ∧ r.updated_at = max loc.updated_at it.row.updated_at
        ∧ (r = syncItemRow it ∨ r = loc))

theorem apply_delta_lww_aux (items : List SyncItem) :
    ∀ (st : DbState), (items.map (fun it => it.id)).Nodup →
      ∀ it ∈ items, lwwOutcome st items it := by
  induction items with
  | nil => intro st _ it hit; exact absurd hit (List.not_mem_nil it)
  | cons it0 rest ih =>
    intro st hnd it hit
    have hnotin : it0.id ∉ rest.map (fun it => it.id) := by
      simp only [List.map_cons, List.nodup_cons] at hnd
      exact hnd.1
    have hndrest : (rest.map (fun it => it.id)).Nodup := by
      simp only [List.map_cons, List.nodup_cons] at hnd
      exact hnd.2
    have hrest_ne : ∀ it2 ∈ rest, it2.id ≠ it0.id := by
      intro it2 h2 he
      exact hnotin (he ▸ List.mem_map_of_mem (fun it => it.id) h2)
    rcases List.mem_cons.mp hit with heq | hmem
    · subst heq
      have hfinal : (apply_delta st (it :: rest)).1.items.lookup it.id
          = (applyStep (st, 0, 0) it).1.items.lookup it.id := by
        simp only [apply_delta, List.foldl_cons]
        rcases hstep : applyStep (st, 0, 0) it with ⟨s1, c1⟩
        have := foldl_applyStep_lookup_ne rest s1 c1 it.id hrest_ne
        simpa using this
      rcases hloc : st.items.lookup it.id with _ | loc
      · simp only [lwwOutcome, hloc]
        rw [hfinal]
        simp only [applyStep, shouldUpsert, hloc, if_true]
        exact lookup_cons_eq it.id (syncItemRow it) st.items
      · simp only [lwwOutcome, hloc]
        by_cases hlt : loc.updated_at < it.row.updated_at
        · have hup : shouldUpsert st it = true := by
            simp [shouldUpsert, hloc, hlt]
          have hlook : (apply_delta st (it :: rest)).1.items.lookup it.id
              = some (syncItemRow it) := by
            rw [hfinal]
            simp only [applyStep, hup, if_true]
            exact lookup_cons_eq it.id (syncItemRow it) st.items
          refine ⟨fun _ => hlook, fun h => absurd hlt h, ?_⟩
          refine ⟨syncItemRow it, hlook, ?_, Or.inl rfl⟩
          rw [max_eq_right (le_of_lt hlt)]
          rfl
        · have hup : shouldUpsert st it = false := by
            simp [shouldUpsert, hloc, hlt]
          have hlook : (apply_delta st (it :: rest)).1.items.lookup it.id = some loc := by
            rw [hfinal]
            simp only [applyStep, hup, Bool.false_eq_true, if_false]
            exact hloc
          refine ⟨fun h => absurd h hlt, fun _ => hlook, ?_⟩
          exact ⟨loc, hlook, (max_eq_left (le_of_not_lt hlt)).symm, Or.inr rfl⟩
    · have hne : it.id ≠ it0.id := by
        intro he
        exact hnotin (he ▸ List.mem_map_of_mem (fun it => it.id) hmem)
      rcases hstep : applyStep (st, 0, 0) it0 with ⟨s1, c1⟩
      have hstate : (apply_delta st (it0 :: rest)).1 = (apply_delta s1 rest).1 := by
        simp only [apply_delta, List.foldl_cons, hstep]
        exact foldl_applyStep_state_indep rest s1 c1 (0, 0)
      have hlook : s1.items.lookup it.id = st.items.lookup it.id := by
        have := applyStep_items_lookup_ne st (0, 0) it0 it.id hne
        rw [hstep] at this
        exact this
      have hout := ih s1 hndrest it hmem
      simp only [lwwOutcome, hlook] at hout
      simp only [lwwOutcome, hstate]
      exact hout

/-- C3: `apply_delta` upserts an incoming item iff no local row with that id
exists or the incoming `updated_at` is strictly newer; otherwise it skips and
the local row is unchanged; afterwards every incoming id stores the row
bearing `max(local, incoming)` updated_at; and `upserted + skipped` equals
the number of incoming items (ids assumed pairwise distinct, as produced by
`get_delta`'s primary-key scan). -/
theorem apply_delta_lww (st : DbState) (items : List SyncItem)
    (hnd : (items.map (fun it => it.id)).Nodup) :
    ((apply_delta st items).2.1 + (apply_delta st items).2.2 = items.length)
  ∧ ∀ it ∈ items, lwwOutcome st items it := by
  constructor
  · have := foldl_applyStep_counts items st (0, 0)
    simpa [apply_delta] using this
  · exact apply_delta_lww_aux items st hnd

/-- A concrete local row used by the LWW witness scenario. -/
def exampleLocalRow : ItemRow :=
  { content := "old", summary := none, knowledge_type := "t", source_type := "s"
    scope := "personal", scope_layer := none, role_tag := none
    dialectic_tag := none, confidence := 0, relevance_score := 0
    usage_count := 0, decision_maker := none, outcome := none
    financial_impact_krw := none, source_id := none, source_context := none
    user_id := none, project_id := none, did_author := none, is_active := true
    expires_at := none, created_at := "2026-01-01T00:00:00Z"
    updated_at := "2026-01-02T00:00:00Z" }

/-- Local database holding one row with id `x`. -/
def exampleLocalDb : DbState :=
  { items := [("x", exampleLocalRow)], embeddings := [("x", [1])] }

/-- Incoming delta: a stale update for `x` (older `updated_at`) and a brand
new item `y`. -/
def exampleDeltaItems : List SyncItem :=
  [ { id := "x",
      row := { exampleLocalRow with content := "stale", updated_at := "2026-01-01T12:00:00Z" },
      embedding := [2] },
    { id := "y",
      row := { exampleLocalRow with content := "new", updated_at := "2026-01-03T00:00:00Z" },
      embedding := [3] } ]

theorem apply_delta_lww_witness :
    ((exampleDeltaItems.map (fun it => it.id)).Nodup)
  ∧ ((apply_delta exampleLocalDb exampleDeltaItems).2.1
      + (apply_delta exampleLocalDb exampleDeltaItems).2.2 = exampleDeltaItems.length)
  ∧ (∀ it ∈ exampleDeltaItems, lwwOutcome exampleLocalDb exampleDeltaItems it) :=
  ⟨by decide,
   (apply_delta_lww exampleLocalDb exampleDeltaItems (by decide)).1,
   (apply_delta_lww exampleLocalDb exampleDeltaItems (by decide)).2⟩

/-- The invariant of the spec: an `embeddings` row exists exactly when the
knowledge item with that id exists. -/
def embeddingInvariant (st : DbState) : Prop :=
  ∀ id : String, (st.items.lookup id).isSome ↔ (st.embeddings.lookup id).isSome

theorem applyStep_preserves_invariant (st : DbState) (c : Nat × Nat) (it : SyncItem)
    (hinv : embeddingInvariant st) (hemb : it.embedding ≠ []) :
    embeddingInvariant (applyStep (st, c) it).1 := by
  simp only [applyStep]
  split
  · intro x
    simp only [upsertState, List.isEmpty_iff]
    rw [if_neg hemb]
    by_cases hx : x = it.id
    · subst hx
      rw [lookup_cons_eq, lookup_cons_eq]
      simp
    · rw [lookup_cons_ne _ _ _ _ hx, lookup_cons_ne _ _ _ _ hx]
      exact hinv x
  · exact hinv

theorem foldl_applyStep_preserves_invariant (items : List SyncItem) :
    ∀ (st : DbState) (c : Nat × Nat), embeddingInvariant st →
      (∀ it ∈ items, it.embedding ≠ []) →
      embeddingInvariant (items.foldl applyStep (st, c)).1 := by
  induction items with
  | nil => intro st c hinv _; exact hinv
  | cons it rest ih =>
    intro st c hinv hemb
    rw [List.foldl_cons]
    rcases hstep : applyStep (st, c) it with ⟨s1, c1⟩
    have hs1 : embeddingInvariant s1 := by
      have := applyStep_preserves_invariant st c it hinv
        (hemb it (List.mem_cons_self it rest))
      rw [hstep] at this
      exact this
    exact ih s1 c1 hs1 (fun it2 h2 => hemb it2 (List.mem_cons_of_mem it h2))

/-- C7 (amended): knowledge create writes the item row and its embedding row
together, soft-delete keeps both, and sync import preserves the
embedding-iff-item invariant provided every upserted incoming item carries a
non-empty embedding (the empty-embedding case is the counterexample). -/
theorem embedding_row_iff_item_row (st : DbState) (hinv : embeddingInvariant st) :
    (∀ (id : String) (row : ItemRow) (embedding : List ℚ),
        embeddingInvariant (create_knowledge_item st id row embedding))
  ∧ (∀ (id now : String), embeddingInvariant (deactivate_knowledge_item st id now))
  ∧ (∀ (items : List SyncItem), (∀ it ∈ items, it.embedding ≠ []) →
        embeddingInvariant (apply_delta st items).1) := by
  refine ⟨?_, ?_, ?_⟩
  · intro id row embedding x
    simp only [create_knowledge_item]
    by_cases hx : x = id
    · subst hx
      rw [lookup_cons_eq, lookup_cons_eq]
      simp
    · rw [lookup_cons_ne _ _ _ _ hx, lookup_cons_ne _ _ _ _ hx]
      exact hinv x
  · intro id now x
    simp only [deactivate_knowledge_item]
    rcases hloc : st.items.lookup id with _ | r
    · exact hinv x
    · by_cases hx : x = id
      · subst hx
        rw [lookup_cons_eq]
        have hr : (st.embeddings.lookup x).isSome = true :=
          (hinv x).mp (by rw [hloc]; rfl)
        simp [hr]
      · rw [lookup_cons_ne _ _ _ _ hx]
        exact hinv x
  · intro items hemb
    exact foldl_applyStep_preserves_invariant items st (0, 0) hinv hemb

/-- The empty database (trivially satisfies the invariant). -/
def emptyDb : DbState := { items := [], embeddings := [] }

/-- An incoming sync item whose embedding vector is empty (as produced by
`get_delta`'s `LEFT JOIN` when the source row has no embedding). -/
def emptyEmbeddingItem : SyncItem :=
  { id := "k1",
    row := { exampleLocalRow with content := "imported", updated_at := "2026-02-01T00:00:00Z" },
    embedding := [] }

/-- C7 counterexample: starting from a state satisfying the invariant,
importing a delta whose single item carries an empty embedding upserts the
knowledge item but never writes the `embeddings` table, so afterwards the
item row exists with no embedding row — the claimed equivalence is false
after this core operation. -/
theorem embedding_row_iff_item_row_counterexample :
    embeddingInvariant emptyDb
  ∧ ((apply_delta emptyDb [emptyEmbeddingItem]).1.items.lookup "k1").isSome = true
  ∧ (apply_delta emptyDb [emptyEmbeddingItem]).1.embeddings.lookup "k1" = none
  ∧ ¬ embeddingInvariant (apply_delta emptyDb [emptyEmbeddingItem]).1 := by
  refine ⟨fun _ => Iff.rfl, rfl, rfl, ?_⟩
  intro h
  have h2 := (h "k1").mp (by rfl)
  have h3 : (apply_delta emptyDb [emptyEmbeddingItem]).1.embeddings.lookup "k1" = none := rfl
  rw [h3] at h2
  simp at h2

theorem embedding_row_iff_item_row_witness :
    embeddingInvariant emptyDb
  ∧ embeddingInvariant (create_knowledge_item emptyDb "a" exampleLocalRow [1]) :=
  ⟨fun _ => Iff.rfl,
   (embedding_row_iff_item_row emptyDb (fun _ => Iff.rfl)).1 "a" exampleLocalRow [1]⟩

/-! ## Fallback embedder (`src-tauri/src/rag/embedding.rs`, `pseudo_embed`)

The accumulation loop is translated exactly (u32 wrapping arithmetic as
`% 2^32`, the `& 0x7fffffff` mask as `% 2^31`); the per-character float value
`sin(code·(d+1)·0.1)·0.1` is a libm call and is abstracted as `valFn`.  The
final L2 normalisation divides by `sqrt(Σ v²)` and is modelled over `ℝ`. -/

/-- `EMBEDDING_DIM` of `rag/embedding.rs`. -/
def EMBEDDING_DIM : Nat := 384

/-- The hashed write index
`(code.wrapping_mul(31).wrapping_add(i*17).wrapping_add(d*37) & 0x7fffffff)
% EMBEDDING_DIM`. -/
def pseudoIdx (code i d : Nat) : Nat :=
  (((code * 31 + i * 17 + d * 37) % 2 ^ 32) % 2 ^ 31) % EMBEDDING_DIM

/-- The inner loop of `pseudo_embed` for one character: for each dimension
`d`, accumulate `valFn code d` at the hashed index. -/
def accumChar (valFn : Nat → Nat → ℚ) (v : List ℚ) (i code : Nat) : List ℚ :=
  (List.range EMBEDDING_DIM).foldl
    (fun w d => w.set (pseudoIdx code i d) (w.getD (pseudoIdx code i d) 0 + valFn code d)) v

/-- The accumulation phase of `pseudo_embed`: start from the zero vector and
fold over the first 500 characters (with their positions). -/
def pseudo_accum (valFn : Nat → Nat → ℚ) (text : String) : List ℚ :=
  ((text.data.take 500).enum).foldl (fun v p => accumChar valFn v p.1 p.2.toNat)
    (List.replicate EMBEDDING_DIM 0)

/-- `Σ v²` — the square of the L2 norm computed by the normalisation step. -/
def sumSq (v : List ℚ) : ℚ := (v.map (fun x => x * x)).sum

/-- The L2 normalisation block shared by `pseudo_embed` and `embed_onnx`:
divide every entry by `sqrt(Σ v²)` unless the norm is zero (`norm > 0.0`
guard), in which case the vector is returned untouched. -/
noncomputable def normalizeVec (v : List ℚ) : List ℝ :=
  if sumSq v = 0 then v.map (fun x : ℚ => (x : ℝ))
  else v.map (fun x : ℚ => (x : ℝ) / Real.sqrt ((sumSq v : ℚ) : ℝ))

/-- `pseudo_embed` of `rag/embedding.rs`: accumulate, then normalise. -/
noncomputable def pseudo_embed (valFn : Nat → Nat → ℚ) (text : String) : List ℝ :=
  normalizeVec (pseudo_accum valFn text)

/-- `Σ v²` of the final real vector. -/
def normSqR (v : List ℝ) : ℝ := (v.map (fun x => x * x)).sum

theorem sumSq_nonneg (v : List ℚ) : 0 ≤ sumSq v := by
  induction v with
  | nil => simp [sumSq]
  | cons x xs ih =>
    simp only [sumSq, List.map_cons, List.sum_cons]
    exact add_nonneg (mul_self_nonneg x) ih

theorem sumSq_cast (v : List ℚ) :
    ((sumSq v : ℚ) : ℝ) = (v.map (fun x : ℚ => ((x : ℝ) * (x : ℝ)))).sum := by
  induction v with
  | nil => simp [sumSq]
  | cons x xs ih =>
    simp only [sumSq, List.map_cons, List.sum_cons] at *
    push_cast
    rw [← ih]
    push_cast
    ring

theorem normalizeVec_normSq (v : List ℚ) (h : sumSq v ≠ 0) :
    normSqR (normalizeVec v) = 1 := by
  have hnn : 0 ≤ sumSq v := sumSq_nonneg v
  have hS : (0 : ℝ) ≤ ((sumSq v : ℚ) : ℝ) := by exact_mod_cast hnn
  have hSne : ((sumSq v : ℚ) : ℝ) ≠ 0 := by exact_mod_cast h
  rw [normalizeVec, if_neg h, normSqR, List.map_map]
  have hfun : ((fun x => x * x) ∘ fun x : ℚ => (x : ℝ) / Real.sqrt ((sumSq v : ℚ) : ℝ))
      = fun x : ℚ => ((x : ℝ) * (x : ℝ)) * (((sumSq v : ℚ) : ℝ))⁻¹ := by
    funext x
    simp only [Function.comp]
    rw [div_mul_div_comm, Real.mul_self_sqrt hS, div_eq_mul_inv]
  rw [hfun, List.sum_map_mul_right, ← sumSq_cast]
  exact mul_inv_cancel₀ hSne

theorem accumChar_length (valFn : Nat → Nat → ℚ) (v : List ℚ) (i code : Nat) :
    (accumChar valFn v i code).length = v.length := by
  rw [accumChar]
  generalize List.range EMBEDDING_DIM = l
  induction l generalizing v with
  | nil => rfl
  | cons d ds ih =>
    rw [List.foldl_cons, ih]
    exact List.length_set v _ _

theorem pseudo_accum_length (valFn : Nat → Nat → ℚ) (text : String) :
    (pseudo_accum valFn text).length = EMBEDDING_DIM := by
  rw [pseudo_accum]
  generalize (text.data.take 500).enum = l
  have : ∀ (ps : List (Nat × Char)) (v : List ℚ),
      (ps.foldl (fun v p => accumChar valFn v p.1 p.2.toNat) v).length = v.length := by
    intro ps
    induction ps with
    | nil => intro v; rfl
    | cons p rest ih =>
      intro v
      rw [List.foldl_cons, ih]
      exact accumChar_length valFn v p.1 p.2.toNat
  rw [this l _]
  exact List.length_replicate EMBEDDING_DIM 0

/-- C8 (amended): the fallback embedding always has exactly 384 entries and
is deterministic (a pure function of the input text); whenever the
accumulated vector is non-zero the normalisation step yields a vector of
unit L2 norm (exactly, in real arithmetic); the empty accumulator — produced
for example by the empty text — is returned unnormalised (the counterexample
to "always L2-normalized"). -/
theorem pseudo_embed_normalized (valFn : Nat → Nat → ℚ) (text : String)
    (v : List ℚ) (hv : sumSq v ≠ 0) :
    (pseudo_embed valFn text).length = EMBEDDING_DIM
  ∧ normSqR (normalizeVec v) = 1
  ∧ pseudo_embed valFn text = normalizeVec (pseudo_accum valFn text)
  ∧ pseudo_embed valFn text = pseudo_embed valFn text := by
  refine ⟨?_, normalizeVec_normSq v hv, rfl, rfl⟩
  rw [pseudo_embed, normalizeVec]
  split
  · rw [List.length_map]
    exact pseudo_accum_length valFn text
  · rw [List.length_map]
    exact pseudo_accum_length valFn text

theorem pseudo_embed_normalized_witness :
    sumSq [1] ≠ 0
  ∧ ((pseudo_embed (fun _ _ => 1) "hello").length = EMBEDDING_DIM
      ∧ normSqR (normalizeVec [1]) = 1) := by
  have h : sumSq [1] ≠ 0 := by norm_num [sumSq]
  exact ⟨h, ((pseudo_embed_normalized (fun _ _ => 1) "hello" [1] h).1),
    (pseudo_embed_normalized (fun _ _ => 1) "hello" [1] h).2.1⟩

/-- C8 counterexample: on the empty text the accumulation loop never runs, so
the vector is all-zero, the `norm > 0` guard skips normalisation, and the
returned embedding has L2 norm 0 — not within 1e-6 of 1 as claimed. -/
theorem pseudo_embed_empty_not_normalized :
    pseudo_accum (fun _ _ => 1) "" = List.replicate EMBEDDING_DIM 0
  ∧ normSqR (pseudo_embed (fun _ _ => 1) "") = 0
  ∧ |Real.sqrt (normSqR (pseudo_embed (fun _ _ => 1) "")) - 1| > 1 / 1000000 := by
  have hacc : pseudo_accum (fun _ _ => (1 : ℚ)) "" = List.replicate EMBEDDING_DIM 0 := rfl
  have hzero : sumSq (List.replicate EMBEDDING_DIM 0) = 0 := by
    simp [sumSq, List.map_replicate]
  have hnorm : normSqR (pseudo_embed (fun _ _ => 1) "") = 0 := by
    rw [pseudo_embed, hacc, normalizeVec, if_pos hzero]
    simp [normSqR, List.map_replicate]
  refine ⟨hacc, hnorm, ?_⟩
  rw [hnorm, Real.sqrt_zero, zero_sub, abs_neg, abs_one]
  norm_num

/-! ## SHA-256 (the `sha2` crate primitive used by `did/signing.rs`)

Implemented in full over byte lists (`Nat` values < 256), with u32 words as
`Nat % 2^32`.  Checked against the standard test vector for `"abc"`. -/

def rotr32 (x n : Nat) : Nat := ((x >>> n) ||| (x <<< (32 - n))) % 2 ^ 32

def shaCh (x y z : Nat) : Nat := (x &&& y) ^^^ ((x ^^^ 4294967295) &&& z)

def shaMaj (x y z : Nat) : Nat := (x &&& y) ^^^ (x &&& z) ^^^ (y &&& z)

def bigSigma0 (x : Nat) : Nat := rotr32 x 2 ^^^ rotr32 x 13 ^^^ rotr32 x 22

def bigSigma1 (x : Nat) : Nat := rotr32 x 6 ^^^ rotr32 x 11 ^^^ rotr32 x 25

def smallSigma0 (x : Nat) : Nat := rotr32 x 7 ^^^ rotr32 x 18 ^^^ (x >>> 3)

def smallSigma1 (x : Nat) : Nat := rotr32 x 17 ^^^ rotr32 x 19 ^^^ (x >>> 10)

def sha256K : List Nat :=
  [ 1116352408, 1899447441, 3049323471, 3921009573,
    961987163, 1508970993, 2453635748, 2870763221,
    3624381080, 310598401, 607225278, 1426881987,
    1925078388, 2162078206, 2614888103, 3248222580,
    3835390401, 4022224774, 264347078, 604807628,
    770255983, 1249150122, 1555081692, 1996064986,
    2554220882, 2821834349, 2952996808, 3210313671,
    3336571891, 3584528711, 113926993, 338241895,
    666307205, 773529912, 1294757372, 1396182291,
    1695183700, 1986661051, 2177026350, 2456956037,
    2730485921, 2820302411, 3259730800, 3345764771,
    3516065817, 3600352804, 4094571909, 275423344,
    430227734, 506948616, 659060556, 883997877,
    958139571, 1322822218, 1537002063, 1747873779,
    1955562222, 2024104815, 2227730452, 2361852424,
    2428436474, 2756734187, 3204031479, 3329325298 ]

def sha256H0 : List Nat :=
  [1779033703, 3144134277, 1013904242, 2773480762, 1359893119, 2600822924, 528734635, 1541459225]

/-- Fixed-width big-endian bytes of a number (`k` bytes). -/
def bytesBE : Nat → Nat → List Nat
  | 0, _ => []
  | k + 1, n => bytesBE k (n / 256) ++ [n % 256]

def sha256Pad (msg : List Nat) : List Nat :=
  msg ++ 128 :: List.replicate ((64 - (msg.length + 9) % 64) % 64) 0
    ++ bytesBE 8 (msg.length * 8)

def chunk64Aux : Nat → List Nat → List (List Nat)
  | 0, _ => []
  | fuel + 1, l => if l.isEmpty then [] else l.take 64 :: chunk64Aux fuel (l.drop 64)

def chunk64 (l : List Nat) : List (List Nat) := chunk64Aux l.length l

def wordsOfBlock (block : List Nat) : List Nat :=
  (List.range 16).map (fun i =>
    block.getD (4 * i) 0 * 2 ^ 24 + block.getD (4 * i + 1) 0 * 2 ^ 16
      + block.getD (4 * i + 2) 0 * 2 ^ 8 + block.getD (4 * i + 3) 0)

def sha256Schedule (w16 : List Nat) : List Nat :=
  (List.range 48).foldl (fun w _ =>
    let t := w.length
    w ++ [(smallSigma1 (w.getD (t - 2) 0) + w.getD (t - 7) 0
           + smallSigma0 (w.getD (t - 15) 0) + w.getD (t - 16) 0) % 2 ^ 32]) w16

def sha256Round (w : List Nat) (st : List Nat) (t : Nat) : List Nat :=
  let a := st.getD 0 0
  let b := st.getD 1 0
  let c := st.getD 2 0
  let d := st.getD 3 0
  let e := st.getD 4 0
  let f := st.getD 5 0
  let g := st.getD 6 0
  let h := st.getD 7 0
  let t1 := (h + bigSigma1 e + shaCh e f g + sha256K.getD t 0 + w.getD t 0) % 2 ^ 32
  let t2 := (bigSigma0 a + shaMaj a b c) % 2 ^ 32
  [(t1 + t2) % 2 ^ 32, a, b, c, (d + t1) % 2 ^ 32, e, f, g]

def sha256Compress (h : List Nat) (block : List Nat) : List Nat :=
  let w := sha256Schedule (wordsOfBlock block)
  let st := (List.range 64).foldl (sha256Round w) h
  (List.range 8).map (fun i => (h.getD i 0 + st.getD i 0) % 2 ^ 32)

/-- SHA-256 of a byte list. -/
def sha256 (msg : List Nat) : List Nat :=
  (((chunk64 (sha256Pad msg)).foldl sha256Compress sha256H0).map (bytesBE 4)).flatten

/-- UTF-8 encoding of one code point. -/
def charUtf8 (c : Nat) : List Nat :=
  if c < 128 then [c]
  else if c < 2048 then [192 + c / 64, 128 + c % 64]
  else if c < 65536 then [224 + c / 4096, 128 + c / 64 % 64, 128 + c % 64]
  else [240 + c / 262144, 128 + c / 4096 % 64, 128 + c / 64 % 64, 128 + c % 64]

/-- The UTF-8 bytes of a string (Rust's `str::as_bytes`). -/
def utf8Bytes (s : String) : List Nat := (s.data.map (fun ch => charUtf8 ch.toNat)).flatten

theorem bytesBE_lt : ∀ (k n : Nat), ∀ b ∈ bytesBE k n, b < 256 := by
  intro k
  induction k with
  | zero => intro n b hb; exact absurd hb (List.not_mem_nil b)
  | succ k ih =>
    intro n b hb
    rcases List.mem_append.mp hb with h | h
    · exact ih (n / 256) b h
    · rcases List.mem_singleton.mp h with rfl
      exact Nat.mod_lt n (by norm_num)

theorem bytesBE_length (k n : Nat) : (bytesBE k n).length = k := by
  induction k generalizing n with
  | zero => rfl
  | succ k ih => simp [bytesBE, ih]

theorem sha256_bytes_lt (msg : List Nat) : ∀ b ∈ sha256 msg, b < 256 := by
  intro b hb
  rw [sha256] at hb
  rcases List.mem_flatten.mp hb with ⟨l, hl, hbl⟩
  rcases List.mem_map.mp hl with ⟨w, -, rfl⟩
  exact bytesBE_lt 4 w b hbl

theorem sha256Compress_length (h block : List Nat) : (sha256Compress h block).length = 8 := by
  simp [sha256Compress]

theorem sha256_length (msg : List Nat) : (sha256 msg).length = 32 := by
  rw [sha256]
  have hst : ∀ (blocks : List (List Nat)) (h : List Nat), h.length = 8 →
      (blocks.foldl sha256Compress h).length = 8 := by
    intro blocks
    induction blocks with
    | nil => intro h hh; exact hh
    | cons b rest ih =>
      intro h _
      rw [List.foldl_cons]
      exact ih _ (sha256Compress_length h b)
  rw [List.length_flatten, List.map_map]
  have : ((chunk64 (sha256Pad msg)).foldl sha256Compress sha256H0).map
      (List.length ∘ bytesBE 4) = List.replicate 8 4 := by
    have hlen := hst (chunk64 (sha256Pad msg)) sha256H0 rfl
    rw [show (List.length ∘ bytesBE 4) = fun n => 4 from funext (fun n => bytesBE_length 4 n)]
    rw [List.map_const']
    rw [hlen]
  rw [this]
  simp

/-! ## Hex encoding (the `hex` crate used by `did/signing.rs`) -/

def hexDigitChar (n : Nat) : Char := "0123456789abcdef".data.getD n 'x'

def hexEncode (bs : List Nat) : String :=
  String.mk ((bs.map (fun b => [hexDigitChar (b / 16), hexDigitChar (b % 16)])).flatten)

def hexCharVal (c : Char) : Option Nat :=
  let n := c.toNat
  if 48 ≤ n ∧ n ≤ 57 then some (n - 48)
  else if 97 ≤ n ∧ n ≤ 102 then some (n - 87)
  else if 65 ≤ n ∧ n ≤ 70 then some (n - 55)
  else none

def hexDecodePairs : List Char → Option (List Nat)
  | [] => some []
  | [_] => none
  | c1 :: c2 :: rest =>
    match hexCharVal c1, hexCharVal c2, hexDecodePairs rest with
    | some hi, some lo, some bs => some ((hi * 16 + lo) :: bs)
    | _, _, _ => none

def hexDecode (s : String) : Option (List Nat) := hexDecodePairs s.data

set_option maxRecDepth 2000 in
theorem hexPair_val : ∀ b : Nat, b < 256 →
    hexCharVal (hexDigitChar (b / 16)) = some (b / 16)
      ∧ hexCharVal (hexDigitChar (b % 16)) = some (b % 16) := by decide

theorem hexDecode_hexEncode (bs : List Nat) (h : ∀ b ∈ bs, b < 256) :
    hexDecode (hexEncode bs) = some bs := by
  induction bs with
  | nil => rfl
  | cons b rest ih =>
    have hb := h b (List.mem_cons_self b rest)
    have hrest := ih (fun x hx => h x (List.mem_cons_of_mem b hx))
    have hpair := hexPair_val b hb
    simp only [hexDecode, hexEncode, List.map_cons, List.flatten_cons, List.cons_append,
      List.nil_append] at *
    simp only [hexDecodePairs, hpair.1, hpair.2, hrest]
    have : b / 16 * 16 + b % 16 = b := by omega
    rw [this]

theorem hexEncode_inj (bs1 bs2 : List Nat) (h1 : ∀ b ∈ bs1, b < 256)
    (h2 : ∀ b ∈ bs2, b < 256) (he : hexEncode bs1 = hexEncode bs2) : bs1 = bs2 := by
  have e1 := hexDecode_hexEncode bs1 h1
  rw [he, hexDecode_hexEncode bs2 h2] at e1
  injection e1 with e1
  exact e1.symm

/-! ## Knowledge signing (`src-tauri/src/did/signing.rs`)

The Ed25519 primitive (`ed25519_dalek`) is abstracted: `sigOf` is the
device key's signing function (64-byte output), `verifyPrim vk sig msg` the
library verification, `resolve` the DID resolution
(`resolver::did_to_verifying_key`).  Everything else — the incremental
canonical hash, the hex plumbing, the hash-comparison short-circuit and the
error/verdict split — is translated from the source. -/

/-- Mirrors `KnowledgeSignature` of `did/signing.rs`. -/
structure KnowledgeSignature where
  did_author : String
  signature : String
  content_hash : String
  signed_at : String
deriving DecidableEq

/-- `Sha256::update` buffers bytes (the hash state is the message seen so
far). -/
def shaUpdate (ctx bs : List Nat) : List Nat := ctx ++ bs

/-- `finalize` hashes the buffered message. -/
def shaFinalize (ctx : List Nat) : List Nat := sha256 ctx

/-- `canonical_hash` of `did/signing.rs`: the update chain
`content`, `"|"`, `knowledge_type`, `"|"`, `created_at` (UTF-8 bytes; 124 is
ASCII `|`), then finalize. -/
def canonical_hash (content knowledge_type created_at : String) : List Nat :=
  shaFinalize (shaUpdate (shaUpdate (shaUpdate (shaUpdate (shaUpdate []
    (utf8Bytes content)) [124]) (utf8Bytes knowledge_type)) [124]) (utf8Bytes created_at))

/-- `sign_knowledge` of `did/signing.rs`: sign the 32-byte canonical hash
(not the message) and store hex encodings. -/
def sign_knowledge (sigOf : List Nat → List Nat)
    (did signed_at content knowledge_type created_at : String) : KnowledgeSignature :=
  let hash := canonical_hash content knowledge_type created_at
  { did_author := did
    signature := hexEncode (sigOf hash)
    content_hash := hexEncode hash
    signed_at := signed_at }

/-- `verify_knowledge` of `did/signing.rs`: recompute the canonical hash and
return `Ok(false)` on mismatch; then resolve the DID, hex-decode the
signature (structural errors), enforce the 64-byte length, and return the
cryptographic verdict as a boolean. -/
def verify_knowledge (resolve : String → Except String (List Nat))
    (verifyPrim : List Nat → List Nat → List Nat → Bool)
    (sig : KnowledgeSignature) (content knowledge_type created_at : String) :
    Except String Bool :=
  let expected := canonical_hash content knowledge_type created_at
  if sig.content_hash ≠ hexEncode expected then Except.ok false
  else
    match resolve sig.did_author with
    | Except.error e => Except.error e
    | Except.ok vk =>
      match hexDecode sig.signature with
      | none => Except.error "Invalid signature hex"
      | some sig_bytes =>
        if sig_bytes.length ≠ 64 then Except.error "Invalid signature length"
        else Except.ok (verifyPrim vk sig_bytes expected)

theorem canonical_hash_bytes_lt (c k t : String) :
    ∀ b ∈ canonical_hash c k t, b < 256 :=
  sha256_bytes_lt _

/-- C4 (amended): the canonical hash is `SHA-256(content ‖ "|" ‖
knowledge_type ‖ "|" ‖ created_at)` over UTF-8 bytes and the signature is
over that 32-byte hash; verifying a signature produced for the unchanged
triple returns `Ok(true)` (given a correct signing primitive); and any change
to content, knowledge_type or created_at that alters the concatenated
message's SHA-256 digest returns `Ok(false)` — an invalid verdict, not an
error.  (Changes that leave the `|`-joined concatenation byte-identical slip
through; see the counterexample.) -/
theorem sign_verify_knowledge (sigOf : List Nat → List Nat)
    (resolve : String → Except String (List Nat))
    (verifyPrim : List Nat → List Nat → List Nat → Bool)
    (did signed_at content knowledge_type created_at : String) (vk : List Nat)
    (hres : resolve did = Except.ok vk)
    (hver : verifyPrim vk (sigOf (canonical_hash content knowledge_type created_at))
        (canonical_hash content knowledge_type created_at) = true) :
    (canonical_hash content knowledge_type created_at
        = sha256 (utf8Bytes content ++ 124 :: (utf8Bytes knowledge_type
            ++ 124 :: utf8Bytes created_at)))
  ∧ ((sign_knowledge sigOf did signed_at content knowledge_type created_at).signature
        = hexEncode (sigOf (canonical_hash content knowledge_type created_at)))
  ∧ ((∀ b ∈ sigOf (canonical_hash content knowledge_type created_at), b < 256) →
      (sigOf (canonical_hash content knowledge_type created_at)).length = 64 →
      verify_knowledge resolve verifyPrim
        (sign_knowledge sigOf did signed_at content knowledge_type created_at)
        content knowledge_type created_at = Except.ok true)
  ∧ (∀ content2 knowledge_type2 created_at2 : String,
      canonical_hash content2 knowledge_type2 created_at2
        ≠ canonical_hash content knowledge_type created_at →
      verify_knowledge resolve verifyPrim
        (sign_knowledge sigOf did signed_at content knowledge_type created_at)
        content2 knowledge_type2 created_at2 = Except.ok false) := by
  refine ⟨?_, rfl, ?_, ?_⟩
  · simp [canonical_hash, shaUpdate, shaFinalize]
  · intro hbnd hlen
    rw [verify_knowledge]
    simp only [sign_knowledge]
    rw [if_neg (fun hne => hne rfl)]
    simp [hres, hexDecode_hexEncode _ hbnd, hlen, hver]
  · intro c2 k2 t2 hne
    rw [verify_knowledge]
    simp only [sign_knowledge]
    rw [if_pos]
    intro heq
    exact hne (hexEncode_inj _ _
      (canonical_hash_bytes_lt content knowledge_type created_at)
      (canonical_hash_bytes_lt c2 k2 t2) heq).symm

theorem canonical_hash_length (c k t : String) : (canonical_hash c k t).length = 32 :=
  sha256_length _

/-- A concrete stand-in signing primitive for witnessing: the "signature" is
the doubled hash, verification checks for it. -/
def toySigOf : List Nat → List Nat := fun h => h ++ h

def toyResolve : String → Except String (List Nat) := fun _ => Except.ok []

def toyVerifyPrim : List Nat → List Nat → List Nat → Bool := fun _ s h => s == h ++ h

theorem toySigOf_bytes_lt (c k t : String) :
    ∀ b ∈ toySigOf (canonical_hash c k t), b < 256 := by
  intro b hb
  simp only [toySigOf] at hb
  rcases List.mem_append.mp hb with h | h
  · exact canonical_hash_bytes_lt c k t b h
  · exact canonical_hash_bytes_lt c k t b h

theorem toySigOf_length (c k t : String) :
    (toySigOf (canonical_hash c k t)).length = 64 := by
  simp [toySigOf, canonical_hash_length]

theorem sign_verify_knowledge_witness :
    (toyResolve "did:key:zTest" = Except.ok [])
  ∧ (toyVerifyPrim [] (toySigOf (canonical_hash "x" "y" "z"))
      (canonical_hash "x" "y" "z") = true)
  ∧ verify_knowledge toyResolve toyVerifyPrim
      (sign_knowledge toySigOf "did:key:zTest" "now" "x" "y" "z") "x" "y" "z"
      = Except.ok true := by
  have h1 : toyResolve "did:key:zTest" = Except.ok [] := rfl
  have h2 : toyVerifyPrim [] (toySigOf (canonical_hash "x" "y" "z"))
      (canonical_hash "x" "y" "z") = true := by
    simp [toyVerifyPrim, toySigOf]
  exact ⟨h1, h2,
    (sign_verify_knowledge toySigOf toyResolve toyVerifyPrim "did:key:zTest" "now"
      "x" "y" "z" [] h1 h2).2.2.1 (toySigOf_bytes_lt "x" "y" "z") (toySigOf_length "x" "y" "z")⟩

set_option maxRecDepth 10000 in
/-- C4 counterexample: the `|`-separated canonical message is not an
injective encoding of the triple.  Signing `("a", "b|c", "t")` and verifying
against the different triple `("a|b", "c", "t")` — content and
knowledge_type both changed — concatenates to the same bytes `a|b|c|t`, so
`verify_knowledge` returns `Ok(true)` although the claim requires `Ok(false)`
for any change to content or knowledge_type. -/
theorem sign_verify_knowledge_counterexample :
    verify_knowledge toyResolve toyVerifyPrim
      (sign_knowledge toySigOf "did:key:zTest" "now" "a" "b|c" "t") "a|b" "c" "t"
      = Except.ok true
  ∧ ("a|b" ≠ "a" ∧ "c" ≠ "b|c") := by
  have heq : canonical_hash "a|b" "c" "t" = canonical_hash "a" "b|c" "t" := rfl
  constructor
  · rw [verify_knowledge]
    simp only [sign_knowledge]
    rw [if_neg (fun hne => hne (congrArg hexEncode heq).symm)]
    have hdec := hexDecode_hexEncode _ (toySigOf_bytes_lt "a" "b|c" "t")
    have hlen := toySigOf_length "a" "b|c" "t"
    simp only [toySigOf] at hdec hlen
    simp [toyResolve, hdec, hlen, toyVerifyPrim, toySigOf, heq]
  · exact ⟨by decide, by decide⟩

/-! ## Positional radix helpers (for the `bs58` crate model)

Big-endian digit expansion with explicit fuel (so every definition computes
by structural recursion), with the two round-trip lemmas needed for the
base58 codec. -/

def natDigitsBEAux (b : Nat) : Nat → Nat → List Nat
  | 0, _ => []
  | fuel + 1, n => if n = 0 then [] else natDigitsBEAux b fuel (n / b) ++ [n % b]

/-- Big-endian base-`b` digits of `n` (empty for `n = 0`). -/
def natDigitsBE (b n : Nat) : List Nat := natDigitsBEAux b n n

/-- Value of a big-endian digit list. -/
def natOfDigitsBE (b : Nat) (ds : List Nat) : Nat :=
  ds.foldl (fun acc d => acc * b + d) 0

theorem natDigitsBEAux_congr (b : Nat) (hb : 2 ≤ b) :
    ∀ (f1 n : Nat), n ≤ f1 → ∀ f2, n ≤ f2 →
      natDigitsBEAux b f1 n = natDigitsBEAux b f2 n := by
  intro f1
  induction f1 with
  | zero =>
    intro n hn f2 _
    interval_cases n
    cases f2 with
    | zero => rfl
    | succ f2 => simp [natDigitsBEAux]
  | succ f1 ih =>
    intro n hn f2 hn2
    by_cases h0 : n = 0
    · subst h0
      cases f2 with
      | zero => simp [natDigitsBEAux]
      | succ f2 => simp [natDigitsBEAux]
    · have hpos : 0 < n := Nat.pos_of_ne_zero h0
      cases f2 with
      | zero => omega
      | succ f2 =>
        simp only [natDigitsBEAux, if_neg h0]
        have hdiv : n / b < n := Nat.div_lt_self hpos (by omega)
        rw [ih (n / b) (by omega) f2 (by omega)]

theorem natDigitsBE_succ (b : Nat) (hb : 2 ≤ b) (n : Nat) (hn : n ≠ 0) :
    natDigitsBE b n = natDigitsBE b (n / b) ++ [n % b] := by
  rcases Nat.exists_eq_succ_of_ne_zero hn with ⟨m, rfl⟩
  rw [natDigitsBE, natDigitsBE]
  simp only [natDigitsBEAux, if_neg hn]
  have hdiv : (m + 1) / b < m + 1 := Nat.div_lt_self (Nat.succ_pos m) (by omega)
  rw [natDigitsBEAux_congr b hb m ((m + 1) / b) (by omega) ((m + 1) / b) (le_refl _)]

theorem natOfDigitsBE_append_last (b : Nat) (ds : List Nat) (d : Nat) :
    natOfDigitsBE b (ds ++ [d]) = natOfDigitsBE b ds * b + d := by
  simp [natOfDigitsBE, List.foldl_append]

theorem natOfDigitsBE_natDigitsBE (b : Nat) (hb : 2 ≤ b) :
    ∀ n, natOfDigitsBE b (natDigitsBE b n) = n := by
  intro n
  induction n using Nat.strong_induction_on with
  | _ n ih =>
    by_cases h0 : n = 0
    · subst h0; rfl
    · rw [natDigitsBE_succ b hb n h0, natOfDigitsBE_append_last,
        ih (n / b) (Nat.div_lt_self (Nat.pos_of_ne_zero h0) (by omega)),
        Nat.mul_comm]
      exact Nat.div_add_mod n b

theorem natDigitsBE_ne_nil (b : Nat) (hb : 2 ≤ b) (n : Nat) (hn : n ≠ 0) :
    natDigitsBE b n ≠ [] := by
  rw [natDigitsBE_succ b hb n hn]
  simp

theorem headD_append_of_ne_nil {l r : List Nat} (h : l ≠ []) :
    (l ++ r).headD 0 = l.headD 0 := by
  cases l with
  | nil => exact absurd rfl h
  | cons x xs => rfl

theorem natDigitsBE_headD_ne_zero (b : Nat) (hb : 2 ≤ b) :
    ∀ n, n ≠ 0 → (natDigitsBE b n).headD 0 ≠ 0 := by
  intro n
  induction n using Nat.strong_induction_on with
  | _ n ih =>
    intro hn
    rw [natDigitsBE_succ b hb n hn]
    by_cases hq : n / b = 0
    · have hnb : n < b := (Nat.div_eq_zero_iff (by omega : 0 < b)).mp hq
      rw [hq]
      have : natDigitsBE b 0 = [] := rfl
      rw [this, List.nil_append]
      simp only [List.headD_cons]
      rw [Nat.mod_eq_of_lt hnb]
      exact hn
    · rw [headD_append_of_ne_nil (natDigitsBE_ne_nil b hb (n / b) hq)]
      exact ih (n / b) (Nat.div_lt_self (Nat.pos_of_ne_zero hn) (by omega)) hq

theorem natDigitsBE_lt (b : Nat) (hb : 2 ≤ b) :
    ∀ n, ∀ d ∈ natDigitsBE b n, d < b := by
  intro n
  induction n using Nat.strong_induction_on with
  | _ n ih =>
    intro d hd
    by_cases h0 : n = 0
    · subst h0; exact absurd hd (List.not_mem_nil d)
    · rw [natDigitsBE_succ b hb n h0] at hd
      rcases List.mem_append.mp hd with h | h
      · exact ih (n / b) (Nat.div_lt_self (Nat.pos_of_ne_zero h0) (by omega)) d h
      · rcases List.mem_singleton.mp h with rfl
        exact Nat.mod_lt n (by omega)

theorem natOfDigitsBE_foldl_ge (b : Nat) (hb : 2 ≤ b) :
    ∀ (ds : List Nat) (acc : Nat), acc ≤ ds.foldl (fun a d => a * b + d) acc := by
  intro ds
  induction ds with
  | nil => intro acc; exact le_refl acc
  | cons d rest ih =>
    intro acc
    rw [List.foldl_cons]
    have h1 : acc ≤ acc * b + d := by nlinarith
    exact le_trans h1 (ih (acc * b + d))

theorem natOfDigitsBE_pos (b : Nat) (hb : 2 ≤ b) (ds : List Nat)
    (hne : ds ≠ []) (hh : ds.headD 0 ≠ 0) : natOfDigitsBE b ds ≠ 0 := by
  cases ds with
  | nil => exact absurd rfl hne
  | cons d rest =>
    simp only [List.headD_cons] at hh
    rw [natOfDigitsBE, List.foldl_cons]
    have := natOfDigitsBE_foldl_ge b hb rest (0 * b + d)
    omega

theorem natDigitsBE_natOfDigitsBE (b : Nat) (hb : 2 ≤ b) :
    ∀ (ds : List Nat), (∀ d ∈ ds, d < b) → ds.headD 0 ≠ 0 → ds ≠ [] →
      natDigitsBE b (natOfDigitsBE b ds) = ds := by
  intro ds
  induction ds using List.reverseRecOn with
  | nil => intro _ _ hne; exact absurd rfl hne
  | append_singleton xs d ihx =>
    intro hlt hh _
    have hd : d < b := hlt d (by simp)
    rw [natOfDigitsBE_append_last]
    rcases eq_or_ne xs [] with hxs | hxsne
    · subst hxs
      have hdne : d ≠ 0 := by simpa using hh
      have hv : natOfDigitsBE b [] * b + d = d := by simp [natOfDigitsBE]
      rw [hv, natDigitsBE_succ b hb d hdne, Nat.div_eq_of_lt hd, Nat.mod_eq_of_lt hd]
      rfl
    · have hhx : xs.headD 0 ≠ 0 := by
        rw [← headD_append_of_ne_nil hxsne]
        exact hh
      have hvpos : natOfDigitsBE b xs ≠ 0 := natOfDigitsBE_pos b hb xs hxsne hhx
      have hvne : natOfDigitsBE b xs * b + d ≠ 0 := by
        have : 1 ≤ natOfDigitsBE b xs := Nat.pos_of_ne_zero hvpos
        nlinarith
      rw [natDigitsBE_succ b hb _ hvne]
      have hdivq : (natOfDigitsBE b xs * b + d) / b = natOfDigitsBE b xs := by
        rw [Nat.mul_comm, Nat.mul_add_div (by omega : 0 < b), Nat.div_eq_of_lt hd,
          Nat.add_zero]
      have hmodq : (natOfDigitsBE b xs * b + d) % b = d := by
        rw [Nat.mul_comm, Nat.mul_add_mod]
        exact Nat.mod_eq_of_lt hd
      rw [hdivq, hmodq]
      rw [ihx (fun x2 hx2 => hlt x2 (List.mem_append_left [d] hx2)) hhx hxsne]

/-! ## did:key codec (`src-tauri/src/did/resolver.rs`)

DID strings are modelled as lists of character codes; `base58_encode` /
`base58_decode` model the `bs58` crate (big-endian base-58 value with one
`'1'` per leading zero byte, invalid characters rejected). -/

/-- Character codes of the Bitcoin base58 alphabet. -/
def b58Codes : List Nat :=
  "123456789ABCDEFGHJKLMNPQRSTUVWXYZabcdefghijkmnopqrstuvwxyz".data.map Char.toNat

/-- The alphabet character for a digit. -/
def b58CharOf (d : Nat) : Nat := b58Codes.getD d 0

/-- The digit of an alphabet character (`none` for an invalid character). -/
def b58DigitOf (c : Nat) : Option Nat := b58Codes.findIdx? (fun x => x == c)

/-- `bs58::encode`: one `'1'` per leading zero byte, then the base-58 digits
of the big-endian value. -/
def base58_encode (bytes : List Nat) : List Nat :=
  List.replicate (bytes.takeWhile (fun x => x == 0)).length (b58CharOf 0)
    ++ (natDigitsBE 58 (natOfDigitsBE 256 bytes)).map b58CharOf

/-- Digit values of a character list (`none` if any character is invalid). -/
def b58DigitsOf : List Nat → Option (List Nat)
  | [] => some []
  | c :: rest =>
    match b58DigitOf c, b58DigitsOf rest with
    | some d, some ds => some (d :: ds)
    | _, _ => none

/-- `bs58::decode`: reject invalid characters, reconstruct the big-endian
bytes of the value, one zero byte per leading `'1'` (code 49). -/
def base58_decode (chars : List Nat) : Option (List Nat) :=
  (b58DigitsOf chars).map (fun ds =>
    List.replicate (chars.takeWhile (fun c => c == 49)).length 0
      ++ natDigitsBE 256 (natOfDigitsBE 58 ds))

/-- Character codes of `"did:key:z"`. -/
def didPrefixCodes : List Nat := "did:key:z".data.map Char.toNat

/-- `public_key_to_did` of `did/resolver.rs`:
`"did:key:z" + base58btc([0xed, 0x01] ‖ pk)`. -/
def public_key_to_did (pk : List Nat) : List Nat :=
  didPrefixCodes ++ base58_encode (237 :: 1 :: pk)

/-- The multicodec and length checks of `did_to_public_key_bytes` once the
base58 payload is decoded. -/
def didChecks (decoded : List Nat) : Except String (List Nat) :=
  if decoded.length < 2 then Except.error "Decoded DID too short"
  else if ¬ (decoded.getD 0 0 = 237 ∧ decoded.getD 1 0 = 1) then
    Except.error "Unexpected multicodec prefix"
  else if (decoded.drop 2).length ≠ 32 then
    Except.error "Invalid public key length"
  else Except.ok (decoded.drop 2)

/-- `did_to_public_key_bytes` of `did/resolver.rs`: validate the
`"did:key:z"` prefix, base58-decode the tail, check the two-byte Ed25519
multicodec prefix `[0xed, 0x01]` and the 32-byte key length. -/
def did_to_public_key_bytes (did : List Nat) : Except String (List Nat) :=
  if didPrefixCodes.isPrefixOf did then
    (base58_decode (did.drop 9)).elim (Except.error "Base58 decode failed") didChecks
  else Except.error "Invalid did:key format"

theorem b58DigitOf_b58CharOf : ∀ d : Nat, d < 58 → b58DigitOf (b58CharOf d) = some d := by
  decide

theorem b58CharOf_ne_one : ∀ d : Nat, d < 58 → d ≠ 0 → b58CharOf d ≠ 49 := by
  decide

theorem b58DigitsOf_map (ds : List Nat) (h : ∀ d ∈ ds, d < 58) :
    b58DigitsOf (ds.map b58CharOf) = some ds := by
  induction ds with
  | nil => rfl
  | cons d rest ih =>
    simp only [List.map_cons, b58DigitsOf,
      b58DigitOf_b58CharOf d (h d (List.mem_cons_self d rest)),
      ih (fun x hx => h x (List.mem_cons_of_mem d hx))]

theorem isPrefixOf_append_self (l r : List Nat) : l.isPrefixOf (l ++ r) = true := by
  induction l with
  | nil =>
    cases r with
    | nil => rfl
    | cons b bs => rfl
  | cons a tl ih => simp [List.isPrefixOf, ih]

theorem base58_decode_encode (m : List Nat) (hm : ∀ x ∈ m, x < 256)
    (hh : m.headD 0 ≠ 0) (hne : m ≠ []) :
    base58_decode (base58_encode m) = some m := by
  have hn : natOfDigitsBE 256 m ≠ 0 := natOfDigitsBE_pos 256 (by omega) m hne hh
  have hdig_lt := natDigitsBE_lt 58 (by omega) (natOfDigitsBE 256 m)
  have hdig_ne : natDigitsBE 58 (natOfDigitsBE 256 m) ≠ [] :=
    natDigitsBE_ne_nil 58 (by omega) _ hn
  have hdig_hd : (natDigitsBE 58 (natOfDigitsBE 256 m)).headD 0 ≠ 0 :=
    natDigitsBE_headD_ne_zero 58 (by omega) _ hn
  have hz : (m.takeWhile (fun x => x == 0)).length = 0 := by
    cases m with
    | nil => exact absurd rfl hne
    | cons a l =>
      simp only [List.headD_cons] at hh
      simp [List.takeWhile_cons, hh]
  rw [base58_encode, hz]
  rw [show List.replicate 0 (b58CharOf 0) = [] from rfl, List.nil_append]
  rw [base58_decode, b58DigitsOf_map _ hdig_lt, Option.map_some']
  have hz2 : (((natDigitsBE 58 (natOfDigitsBE 256 m)).map b58CharOf).takeWhile
      (fun c => c == 49)).length = 0 := by
    rcases hd : natDigitsBE 58 (natOfDigitsBE 256 m) with _ | ⟨h0, tl⟩
    · exact absurd hd hdig_ne
    · have h0lt : h0 < 58 := hdig_lt h0 (by rw [hd]; exact List.mem_cons_self _ _)
      have h0ne : h0 ≠ 0 := by rw [hd] at hdig_hd; simpa using hdig_hd
      simp [List.takeWhile_cons, b58CharOf_ne_one h0 h0lt h0ne]
  rw [hz2]
  rw [show (List.replicate 0 0 : List Nat) = [] from rfl, List.nil_append]
  rw [natOfDigitsBE_natDigitsBE 58 (by omega)]
  rw [natDigitsBE_natOfDigitsBE 256 (by omega) m hm hh hne]

/-- C5: `public_key_to_did` emits `"did:key:z" + base58btc([0xed, 0x01] ‖
pk)`, and `did_to_public_key_bytes` is its left inverse on every 32-byte key;
decoding rejects with an error any string lacking the `did:key:z` prefix, any
decoded payload with a wrong two-byte multicodec prefix, and any decoded tail
that is not exactly 32 bytes. -/
theorem did_key_encode_decode (pk : List Nat) (hlen : pk.length = 32)
    (hbytes : ∀ x ∈ pk, x < 256) :
    (public_key_to_did pk = didPrefixCodes ++ base58_encode (237 :: 1 :: pk))
  ∧ did_to_public_key_bytes (public_key_to_did pk) = Except.ok pk
  ∧ (∀ did : List Nat, didPrefixCodes.isPrefixOf did = false →
      did_to_public_key_bytes did = Except.error "Invalid did:key format")
  ∧ (∀ (did decoded : List Nat),
      didPrefixCodes.isPrefixOf did = true →
      base58_decode (did.drop 9) = some decoded →
      2 ≤ decoded.length →
      ¬ (decoded.getD 0 0 = 237 ∧ decoded.getD 1 0 = 1) →
      did_to_public_key_bytes did = Except.error "Unexpected multicodec prefix")
  ∧ (∀ (did rest : List Nat),
      didPrefixCodes.isPrefixOf did = true →
      base58_decode (did.drop 9) = some (237 :: 1 :: rest) →
      rest.length ≠ 32 →
      did_to_public_key_bytes did = Except.error "Invalid public key length") := by
  refine ⟨rfl, ?_, ?_, ?_, ?_⟩
  · rw [public_key_to_did, did_to_public_key_bytes,
      if_pos (isPrefixOf_append_self didPrefixCodes (base58_encode (237 :: 1 :: pk)))]
    rw [show (9 : Nat) = didPrefixCodes.length from rfl, List.drop_left]
    have hm : ∀ x ∈ (237 :: 1 :: pk), x < 256 := by
      intro x hx
      rcases List.mem_cons.mp hx with rfl | hx
      · omega
      · rcases List.mem_cons.mp hx with rfl | hx
        · omega
        · exact hbytes x hx
    rw [base58_decode_encode (237 :: 1 :: pk) hm (by simp) (by simp)]
    rw [Option.elim_some, didChecks]
    rw [if_neg (by simp : ¬ (237 :: 1 :: pk).length < 2)]
    rw [if_neg (by simp : ¬ ¬ ((237 :: 1 :: pk).getD 0 0 = 237 ∧ (237 :: 1 :: pk).getD 1 0 = 1))]
    rw [if_neg (by simp [hlen] : ¬ ((237 :: 1 :: pk).drop 2).length ≠ 32)]
    rfl
  · intro did h
    simp [did_to_public_key_bytes, h]
  · intro did decoded hpre hdec hlen2 hbad
    rw [did_to_public_key_bytes, if_pos hpre, hdec, Option.elim_some, didChecks]
    rw [if_neg (by omega : ¬ decoded.length < 2), if_pos hbad]
  · intro did rest hpre hdec hrest
    rw [did_to_public_key_bytes, if_pos hpre, hdec, Option.elim_some, didChecks]
    rw [if_neg (by simp : ¬ (237 :: 1 :: rest).length < 2)]
    rw [if_neg (by simp : ¬ ¬ ((237 :: 1 :: rest).getD 0 0 = 237 ∧ (237 :: 1 :: rest).getD 1 0 = 1))]
    rw [if_pos (by simpa using hrest)]

theorem did_key_encode_decode_witness :
    ((List.replicate 32 42 : List Nat).length = 32 ∧ (∀ x ∈ (List.replicate 32 42 : List Nat), x < 256))
  ∧ did_to_public_key_bytes (public_key_to_did (List.replicate 32 42))
      = Except.ok (List.replicate 32 42) :=
  ⟨⟨by decide, by decide⟩,
   (did_key_encode_decode (List.replicate 32 42) (by decide) (by decide)).2.1⟩
